import Mathlib

set_option linter.unusedVariables false

/-!
Verification of the FSFS revision-file statistics engine
(`subversion/libsvn_fs_fs/stats.c`) against its specification, via a
shallow embedding of the engine's data model and operations.

Modelling conventions:
* machine integers (`apr_size_t`, `apr_off_t`, `apr_int64_t`,
  `apr_uint32_t`) are modelled as `Nat`; theorems about the histogram
  shift loop restrict sizes to the range where the C loop is free of
  signed overflow;
* C strings (`const char *` paths) are modelled as `String`;
* pointers used as opaque values (function pointers and `void *` batons)
  are modelled as `Nat`, with `0` playing the role of `NULL`;
* fallible functions (`svn_error_t *` returns) are modelled as
  `Except Err`.
-/

namespace Stats

/-! ### Histograms (stats.c:266-281) -/

/-- One line of `svn_fs_fs__histogram_t`: number of values in the bucket
and their sum. -/
structure HistogramLine where
  count : Nat
  sum : Nat
deriving DecidableEq, Repr

/-- `svn_fs_fs__histogram_t`: bucket lines indexed by the bit-width of
the value, plus a `total` aggregate.  The C struct has a fixed
`lines[64]` array; the lines are modelled as a total function from the
bucket index, which agrees with the array on indices 0..63 (every size
in the well-defined `apr_int64_t` range maps to a bucket below 64). -/
structure Histogram where
  total : HistogramLine
  lines : Nat → HistogramLine

/-- A zeroed histogram (the engine `apr_pcalloc`s its stats struct). -/
def emptyHistogram : Histogram := { total := ⟨0, 0⟩, lines := fun _ => ⟨0, 0⟩ }

/-- The `while (((apr_int64_t)(1) << shift) <= size) shift++;` loop of
`add_to_histogram` (stats.c:274-275), starting from SHIFT. -/
def histogramShiftAux (size shift : Nat) : Nat :=
  if 2 ^ shift ≤ size then histogramShiftAux size (shift + 1) else shift
termination_by size - shift
decreasing_by
  have h2 : shift < 2 ^ shift := Nat.lt_two_pow shift
  omega

/-- The bucket index computed by `add_to_histogram` for SIZE: the loop
starts at shift 0. -/
def histogramShift (size : Nat) : Nat := histogramShiftAux size 0

/-- `add_to_histogram` (stats.c:268-281): bump the total line and the
bucket line selected by the shift loop. -/
def add_to_histogram (histogram : Histogram) (size : Nat) : Histogram :=
  let shift := histogramShift size
  { total := ⟨histogram.total.count + 1, histogram.total.sum + size⟩,
    lines := fun k =>
      if k = shift then
        ⟨(histogram.lines k).count + 1, (histogram.lines k).sum + size⟩
      else histogram.lines k }

/-! ### Change-count decoding (stats.c:704-721) -/

/-- The newline-counting loop of `get_change_count` (stats.c:714-717). -/
def count_newlines : List Char → Nat
  | [] => 0
  | c :: rest => (if c = '\n' then 1 else 0) + count_newlines rest

/-- `get_change_count` (stats.c:707-721): two lines per change, hence
newline count divided by two. -/
def get_change_count (changes : List Char) : Nat :=
  count_newlines changes / 2

/-- A well-formed changed-paths section: a sequence of two-line records,
each line terminated by a newline.  The two line bodies of each record
are given newline-free in the well-formedness hypotheses. -/
def changes_section (records : List (List Char × List Char)) : List Char :=
  (records.map (fun r => r.1 ++ ['\n'] ++ r.2 ++ ['\n'])).flatten

/-! ### Largest-changes accumulator (stats.c:234-318) -/

/-- `svn_fs_fs__large_change_info_t`.  `SVN_INVALID_REVNUM` is modelled
as revision 0; the revision and path fields play no role in the verified
ordering properties. -/
structure LargeChangeInfo where
  size : Nat
  revision : Nat
  path : String
deriving DecidableEq, Repr

/-- `svn_fs_fs__largest_changes_t`: capacity `count`, the minimum size
still making it into the list, and the entries themselves. -/
structure LargestChanges where
  count : Nat
  min_size : Nat
  changes : List LargeChangeInfo
deriving DecidableEq, Repr

/-- `initialize_largest_changes` (stats.c:237-264): COUNT entries, all
with size 0 and empty path, and `min_size` 1. -/
def initialize_largest_changes (count : Nat) : LargestChanges :=
  { count := count, min_size := 1,
    changes := List.replicate count ⟨0, 0, ""⟩ }

/-- The shift loop of `add_change` (stats.c:309-315) viewed from the
right end of the array: walking leftwards from the vacated last slot,
entries whose size is below the new size are shifted one slot to the
right, and the new entry is stored behind the first entry at least as
large.  `shift_in` performs this on the reversed entry list (rightmost
entry first). -/
def shift_in (info : LargeChangeInfo) : List LargeChangeInfo → List LargeChangeInfo
  | [] => [info]
  | x :: xs => if x.size < info.size then x :: shift_in info xs else info :: x :: xs

/-- The `largest_changes` update block of `add_change` (stats.c:296-318):
discard if below `min_size`; otherwise overwrite the last entry and
shift it into place, then refresh `min_size` from the new last entry. -/
def add_change_largest (lc : LargestChanges) (size revision : Nat) (path : String) :
    LargestChanges :=
  if lc.min_size ≤ size then
    let info : LargeChangeInfo := ⟨size, revision, path⟩
    let changes := (shift_in info lc.changes.dropLast.reverse).reverse
    { lc with
      changes := changes,
      min_size := ((changes.getLast?).map LargeChangeInfo.size).getD 0 }
  else lc

/-- The size of the last (smallest) stored entry. -/
def last_entry_size (lc : LargestChanges) : Nat :=
  ((lc.changes.getLast?).map LargeChangeInfo.size).getD 0

/-- Entries sorted descending by size (non-strictly). -/
def descendingBySize (l : List LargeChangeInfo) : Prop :=
  l.Chain' (fun a b => b.size ≤ a.size)

/-- Fold a list of `(size, revision, path)` insertions into the
largest-changes accumulator. -/
def run_largest (inserts : List (Nat × Nat × String)) : LargestChanges :=
  inserts.foldl (fun st ins => add_change_largest st ins.1 ins.2.1 ins.2.2)
    (initialize_largest_changes 64)

/-! ### Representation registry (stats.c:442-564, 648-669)

The registry is modelled per revision, for representations whose
`rep->revision` equals the revision currently being parsed (in the rep
descriptors handed to `parse_representation` by `read_noderev`); for
those, `find_representation` uses the provided `revision_info` directly
(stats.c:477-478) without consulting the revisions array. -/

/-- `rep_kind_t` (stats.c:49-67). -/
inductive RepKind where
  | unused_rep
  | dir_property_rep
  | file_property_rep
  | dir_rep
  | file_rep
deriving DecidableEq, Repr

/-- `rep_stats_t` (stats.c:71-95). -/
structure Rep where
  offset : Nat
  size : Nat
  expanded_size : Nat
  revision : Nat
  ref_count : Nat
  header_size : Nat
  kind : RepKind
deriving DecidableEq, Repr

/-- The fields of `representation_t` consumed by `parse_representation`
(stats.c:526-538): location `(revision, item_index)` and the sizes. -/
structure RepDesc where
  revision : Nat
  item_index : Nat
  size : Nat
  expanded_size : Nat
deriving DecidableEq, Repr

/-- `svn_sort__bsearch_lower_bound` with
`compare_representation_offsets` (stats.c:446-455, 490-492): on a list
sorted ascending by offset, the first index whose element has
`offset ≥ OFFSET` (the insertion point on a miss). -/
def bsearch_lower_bound : List Rep → Nat → Nat
  | [], _ => 0
  | r :: rs, offset =>
    if r.offset < offset then bsearch_lower_bound rs offset + 1 else 0

/-- Insertion at an index, as done by `svn_sort__array_insert`
(stats.c:558). -/
def insertAt (n : Nat) (r : Rep) : List Rep → List Rep :=
  match n with
  | 0 => fun reps => r :: reps
  | n + 1 => fun reps =>
    match reps with
    | [] => [r]
    | x :: xs => x :: insertAt n r xs

/-- In-place update of the array slot holding an interned rep (the C
code mutates the rep through the pointer stored in the array). -/
def setAt (n : Nat) (r : Rep) : List Rep → List Rep
  | [] => []
  | x :: xs =>
    match n with
    | 0 => r :: xs
    | m + 1 => x :: setAt m r xs

/-- `find_representation` (stats.c:466-504), same-revision case: binary
search for OFFSET in the revision's representation list; returns the
lower-bound index together with the rep found there, if its offset
matches. -/
def find_representation (reps : List Rep) (offset : Nat) : Nat × Option Rep :=
  let idx := bsearch_lower_bound reps offset
  match reps.get? idx with
  | some r => if r.offset = offset then (idx, some r) else (idx, none)
  | none => (idx, none)

/-- `parse_representation` (stats.c:512-564): look the rep up; if absent
construct a fresh `rep_stats_t` (`apr_pcalloc` zeroes `ref_count`,
`header_size` and `kind`) and insert it at the lower-bound index.
Returns the rep, the updated list and the rep's index.  The
physical-mode branch reading the rep header (stats.c:543-556) only fills
`header_size`; it is modelled by the zero value of the logical mode and
is irrelevant to the interning properties proved below. -/
def parse_representation (reps : List Rep) (rep : RepDesc) : Rep × List Rep × Nat :=
  match find_representation reps rep.item_index with
  | (idx, some result) => (result, reps, idx)
  | (idx, none) =>
    let result : Rep :=
      { offset := rep.item_index
        size := rep.size
        expanded_size := if rep.expanded_size ≠ 0 then rep.expanded_size else rep.size
        revision := rep.revision
        ref_count := 0
        header_size := 0
        kind := .unused_rep }
    (result, insertAt idx result reps, idx)

/-- One rep reference made by `read_noderev` (stats.c:648-669): intern
the rep, increment its `ref_count` through the interned pointer, and on
the 0 to 1 transition assign the kind derived from the referring node. -/
def reference_rep (reps : List Rep) (desc : RepDesc) (k : RepKind) : List Rep :=
  let (result, reps1, idx) := parse_representation reps desc
  let result1 := { result with ref_count := result.ref_count + 1 }
  let result2 := if result1.ref_count = 1 then { result1 with kind := k } else result1
  setAt idx result2 reps1

/-- `svn_node_kind_t`, restricted to the kinds a noderev can have. -/
inductive NodeKind where
  | dir
  | file
deriving DecidableEq, Repr

/-- The fields of `node_revision_t` consumed by `read_noderev`:
node kind, optional data and property reps, predecessor presence and
created path. -/
structure NodeRev where
  kind : NodeKind
  data_rep : Option RepDesc
  prop_rep : Option RepDesc
  predecessor : Bool
  created_path : String
deriving DecidableEq, Repr

/-- The rep-interning part of `read_noderev` (stats.c:648-669): data rep
first (kind `dir_rep`/`file_rep`), then property rep (kind
`dir_property_rep`/`file_property_rep`). -/
def read_noderev_reps (reps : List Rep) (nr : NodeRev) : List Rep :=
  let reps1 :=
    match nr.data_rep with
    | some d =>
      reference_rep reps d
        (if nr.kind = NodeKind.dir then RepKind.dir_rep else RepKind.file_rep)
    | none => reps
  match nr.prop_rep with
  | some p =>
    reference_rep reps1 p
      (if nr.kind = NodeKind.dir then RepKind.dir_property_rep
       else RepKind.file_property_rep)
  | none => reps1

/-- The stream of rep references a noderev makes, in program order, with
the kind each reference would assign on first use. -/
def noderev_refs (nr : NodeRev) : List (RepDesc × RepKind) :=
  (match nr.data_rep with
   | some d =>
     [(d, if nr.kind = NodeKind.dir then RepKind.dir_rep else RepKind.file_rep)]
   | none => []) ++
  (match nr.prop_rep with
   | some p =>
     [(p, if nr.kind = NodeKind.dir then RepKind.dir_property_rep
          else RepKind.file_property_rep)]
   | none => [])

/-- Fold a single rep reference. -/
def refStep (reps : List Rep) (rk : RepDesc × RepKind) : List Rep :=
  reference_rep reps rk.1 rk.2

/-- Process a sequence of rep references. -/
def processRefs (reps : List Rep) (refs : List (RepDesc × RepKind)) : List Rep :=
  refs.foldl refStep reps

/-- Parse a revision's noderevs (the rep-interning effects), starting
from the revision's initially empty representations array. -/
def parse_revision_reps (nrs : List NodeRev) : List Rep :=
  nrs.foldl read_noderev_reps []

/-- Representations sorted strictly ascending by offset (the registry
invariant, spec section 3). -/
def SortedReps (reps : List Rep) : Prop :=
  reps.Pairwise (fun a b => a.offset < b.offset)

/-- The net effect of `reference_rep` on an already-interned rep: the
`ref_count` increment and the conditional kind assignment of
stats.c:655-656 / 666-668. -/
def bump_rep (r : Rep) (k : RepKind) : Rep :=
  let r1 := { r with ref_count := r.ref_count + 1 }
  if r1.ref_count = 1 then { r1 with kind := k } else r1

/-- The net effect of `reference_rep` when the rep was not interned yet:
a freshly `apr_pcalloc`ed `rep_stats_t` (stats.c:533-538) whose
`ref_count` was immediately incremented to 1 and whose kind was set. -/
def fresh_rep (desc : RepDesc) (k : RepKind) : Rep :=
  { offset := desc.item_index
    size := desc.size
    expanded_size := if desc.expanded_size ≠ 0 then desc.expanded_size else desc.size
    revision := desc.revision
    ref_count := 1
    header_size := 0
    kind := k }

/-- The reps of a revision sitting at a given offset. -/
def repAt (reps : List Rep) (o : Nat) : List Rep :=
  reps.filter (fun r => r.offset = o)

/-- The evolution of the (at most one, by sortedness) rep at a fixed
offset under one reference to that offset. -/
def singleStep (cur : List Rep) (rk : RepDesc × RepKind) : List Rep :=
  match cur with
  | [] => [fresh_rep rk.1 rk.2]
  | r :: _ => [bump_rep r rk.2]

/-- The evolution of the rep at a fixed offset under a sequence of
references to that offset. -/
def singleFold (cur : List Rep) (refs : List (RepDesc × RepKind)) : List Rep :=
  refs.foldl singleStep cur

/-- The flattened stream of rep references made while parsing a list of
noderevs, in program order. -/
def revision_refs (nrs : List NodeRev) : List (RepDesc × RepKind) :=
  (nrs.map noderev_refs).flatten

/-! ### Aggregation (stats.c:1069-1156) -/

/-- `svn_fs_fs__rep_pack_stats_t`. -/
structure RepPackStats where
  count : Nat
  packed_size : Nat
  expanded_size : Nat
  overhead_size : Nat
deriving DecidableEq, Repr

/-- `svn_fs_fs__representation_stats_t`. -/
structure RepresentationStats where
  total : RepPackStats
  uniques : RepPackStats
  shared : RepPackStats
  references : Nat
  expanded_size : Nat
deriving DecidableEq, Repr

def emptyRepPackStats : RepPackStats := ⟨0, 0, 0, 0⟩

def emptyRepresentationStats : RepresentationStats :=
  ⟨emptyRepPackStats, emptyRepPackStats, emptyRepPackStats, 0, 0⟩

/-- `add_rep_pack_stats` (stats.c:1071-1080); the 7 accounts for the
`ENDREP\n` trailer. -/
def add_rep_pack_stats (stats : RepPackStats) (rep : Rep) : RepPackStats :=
  { count := stats.count + 1
    packed_size := stats.packed_size + rep.size
    expanded_size := stats.expanded_size + rep.expanded_size
    overhead_size := stats.overhead_size + rep.header_size + 7 }

/-- `add_rep_stats` (stats.c:1084-1096). -/
def add_rep_stats (stats : RepresentationStats) (rep : Rep) : RepresentationStats :=
  { total := add_rep_pack_stats stats.total rep
    uniques :=
      if rep.ref_count = 1 then add_rep_pack_stats stats.uniques rep
      else stats.uniques
    shared :=
      if rep.ref_count = 1 then stats.shared
      else add_rep_pack_stats stats.shared rep
    references := stats.references + rep.ref_count
    expanded_size := stats.expanded_size + rep.ref_count * rep.expanded_size }

/-- The five per-kind rep-stats buckets of `svn_fs_fs__stats_t` touched
by the representation loop of `aggregate_stats`. -/
structure RepBuckets where
  file_rep_stats : RepresentationStats
  dir_rep_stats : RepresentationStats
  file_prop_rep_stats : RepresentationStats
  dir_prop_rep_stats : RepresentationStats
  total_rep_stats : RepresentationStats
deriving DecidableEq, Repr

def emptyRepBuckets : RepBuckets :=
  ⟨emptyRepresentationStats, emptyRepresentationStats, emptyRepresentationStats,
   emptyRepresentationStats, emptyRepresentationStats⟩

/-- The body of the representation loop of `aggregate_stats`
(stats.c:1129-1154): dispatch on the rep kind (the `unused_rep` default
case touches no kind bucket), then always accumulate into
`total_rep_stats`. -/
def aggregate_rep (stats : RepBuckets) (rep : Rep) : RepBuckets :=
  let stats1 :=
    match rep.kind with
    | RepKind.file_rep =>
      { stats with file_rep_stats := add_rep_stats stats.file_rep_stats rep }
    | RepKind.dir_rep =>
      { stats with dir_rep_stats := add_rep_stats stats.dir_rep_stats rep }
    | RepKind.file_property_rep =>
      { stats with file_prop_rep_stats := add_rep_stats stats.file_prop_rep_stats rep }
    | RepKind.dir_property_rep =>
      { stats with dir_prop_rep_stats := add_rep_stats stats.dir_prop_rep_stats rep }
    | RepKind.unused_rep => stats
  { stats1 with total_rep_stats := add_rep_stats stats1.total_rep_stats rep }

/-- The representation pass of `aggregate_stats` over the reps of all
revisions, flattened into one list (the pass visits every
`revision->representations` element exactly once, in order). -/
def aggregate_reps (reps : List Rep) (stats : RepBuckets) : RepBuckets :=
  reps.foldl aggregate_rep stats

/-! ### Logical driver: p2l entry processing (stats.c:899-1000) -/

/-- `svn_fs_fs__p2l_entry_t`, as consumed by the entry loop: location,
size, item type and the item's revision.  The item-type constants live
in `index.h` (outside this file); only their distinctness matters here,
so they are modelled as distinct naturals. -/
structure P2LEntry where
  offset : Nat
  size : Nat
  type : Nat
  item_revision : Nat
deriving DecidableEq, Repr

/-- `SVN_FS_FS__ITEM_TYPE_NODEREV` (modelled value). -/
def itemTypeNoderev : Nat := 1

/-- `SVN_FS_FS__ITEM_TYPE_CHANGES` (modelled value). -/
def itemTypeChanges : Nat := 2

/-- The entry loop of `read_log_rev_or_packfile` (stats.c:955-992) for
one index block.  ENTRIES is the block returned by
`svn_fs_fs__p2l_index_lookup`, I the entry index within the block and
OFFSET the current walk position.  Returns the final walk position and
the indices of the entries that reach the item dispatch
(stats.c:968-988); an entry skipped by either `continue` has no effect
on any revision's statistics and raises no error.  The dispatch itself
(reading the item and feeding it to `read_noderev` or
`get_change_count`) happens exactly for the returned indices. -/
def process_entries_aux : List P2LEntry → Nat → Nat → Nat × List Nat
  | [], offset, _ => (offset, [])
  | e :: rest, offset, i =>
    if i = 0 ∧ e.offset < offset then
      process_entries_aux rest offset (i + 1)
    else if e.size = 0 then
      process_entries_aux rest offset (i + 1)
    else
      let r := process_entries_aux rest (offset + e.size) (i + 1)
      (r.1, i :: r.2)

/-- One block iteration of the entry loop, starting at the block's first
entry (`i = 0`) and walk position OFFSET. -/
def process_entries (entries : List P2LEntry) (offset : Nat) : Nat × List Nat :=
  process_entries_aux entries offset 0

/-! ### Traversal drivers and the public entry point
(stats.c:723-874, 899-1237)

The drivers are modelled down to their control flow: the order of
cancellation checks, revision-info construction, pushes onto the
revisions array, and progress notifications.  The per-revision content
work (`get_content`, `read_revision_header`, `read_noderev`,
`get_change_count` — verified separately above) is abstracted into
oracles of the filesystem record that may fail, which is all the
driver-level claims depend on. -/

/-- `svn error` kinds relevant to the engine (spec section 7). -/
inductive Err where
  | corrupt
  | io
  | cancelled
  | indexInconsistent
deriving DecidableEq, Repr

/-- Driver-level view of `revision_info_t`: the fields `read_revisions`
itself assigns (`revision`, `offset`, `end`).  `end` is a Lean keyword,
hence `end_`. -/
structure RevisionInfo where
  revision : Nat
  offset : Nat
  end_ : Nat
deriving DecidableEq, Repr

/-- The filesystem dimensions and external calls consumed by the
drivers (spec section 6).  `cancel` models the cancellation callback,
keyed by the revision being processed when it is invoked; `parse_rev`
models the content reading and parsing of one revision (physical mode);
`walk` models the whole p2l block walk of one rev/pack file (logical
mode), both with their possible failures. -/
structure Fs where
  head : Nat
  shard_size : Nat
  min_unpacked_rev : Nat
  use_log : Bool
  packed_offset : Nat → Nat
  file_size : Nat → Nat
  p2l_max_offset : Nat → Nat
  cancel : Nat → Except Err Unit
  parse_rev : Nat → Except Err Unit
  walk : Nat → Except Err Unit

/-- A recorded progress notification: the revision passed to the
callback and the baton value passed with it. -/
structure Note where
  rev : Nat
  baton : Nat
deriving DecidableEq, Repr

/-- `query_t` (stats.c:145-180), driver-level: the repository
dimensions are read through `fs`; `notes` records the progress
notifications issued so far (an observation artefact, not program
state).  Function pointers and batons are opaque words, `0` = `NULL`. -/
structure Query where
  fs : Fs
  revisions : List RevisionInfo
  notes : List Note
  progress_func : Nat
  progress_baton : Nat

/-- Invoke the progress callback if one was supplied, passing the
query's stored baton (stats.c:797-798, 863-869, 1012-1014, 1029-1036). -/
def notify_progress (q : Query) (rev : Nat) : Query :=
  if q.progress_func ≠ 0 then
    { q with notes := q.notes ++ [⟨rev, q.progress_baton⟩] }
  else q

/-- Generic in-place update of a list element, as done by
`APR_ARRAY_IDX(query->revisions, base, ...)->end = ...`. -/
def updateAt {α : Type} (n : Nat) (f : α → α) : List α → List α
  | [] => []
  | x :: xs =>
    match n with
    | 0 => f x :: xs
    | m + 1 => x :: updateAt m f xs

/-- One iteration of the revision loop of `read_phys_pack_file`
(stats.c:742-794): cancellation check, then build the revision info
(manifest offset, end from the next manifest offset or the file size),
read and parse the revision's content, and push the info. -/
def phys_pack_rev (base file_size : Nat) (q : Query) (i : Nat) : Except Err Query := do
  q.fs.cancel (base + i)
  q.fs.parse_rev (base + i)
  let info : RevisionInfo :=
    { revision := base + i
      offset := q.fs.packed_offset (base + i)
      end_ := if i + 1 = q.fs.shard_size then file_size
              else q.fs.packed_offset (base + i + 1) }
  pure { q with revisions := q.revisions ++ [info] }

/-- `read_phys_pack_file` (stats.c:726-803): process the shard's
revisions in order, then one progress notification for the pack. -/
def read_phys_pack_file (q : Query) (base : Nat) : Except Err Query := do
  let q1 ← (List.range q.fs.shard_size).foldlM (phys_pack_rev base (q.fs.file_size base)) q
  pure (notify_progress q1 base)

/-- `read_phys_revision_file` (stats.c:808-874): cancellation check,
parse the whole file as one revision, push it, then progress every
`shard_size` revisions (or every 1000 if non-sharded). -/
def read_phys_revision_file (q : Query) (revision : Nat) : Except Err Query := do
  q.fs.cancel revision
  q.fs.parse_rev revision
  let info : RevisionInfo :=
    { revision := revision, offset := 0, end_ := q.fs.file_size revision }
  let q1 := { q with revisions := q.revisions ++ [info] }
  let q2 :=
    if q1.fs.shard_size ≠ 0 ∧ revision % q1.fs.shard_size = 0 then
      notify_progress q1 revision
    else q1
  pure (if q2.fs.shard_size = 0 ∧ revision % 1000 = 0 then
          notify_progress q2 revision
        else q2)

/-- `read_log_rev_or_packfile` (stats.c:902-1000): push one zeroed info
per covered revision up front, record the whole pack size under the
first revision's `end` (an absolute index `base` into the revisions
array), then run the p2l block walk. -/
def read_log_rev_or_packfile (q : Query) (base count : Nat) : Except Err Query := do
  let infos := (List.range count).map
    (fun i => ({ revision := base + i, offset := 0, end_ := 0 } : RevisionInfo))
  let q1 := { q with revisions := q.revisions ++ infos }
  let q2 := { q1 with
    revisions := updateAt base
      (fun info => { info with end_ := q.fs.p2l_max_offset base }) q1.revisions }
  q.fs.walk base
  pure q2

/-- `read_log_pack_file` (stats.c:1005-1017). -/
def read_log_pack_file (q : Query) (base : Nat) : Except Err Query := do
  let q1 ← read_log_rev_or_packfile q base q.fs.shard_size
  pure (notify_progress q1 base)

/-- `read_log_revision_file` (stats.c:1022-1039). -/
def read_log_revision_file (q : Query) (revision : Nat) : Except Err Query := do
  let q1 ← read_log_rev_or_packfile q revision 1
  let q2 :=
    if q1.fs.shard_size ≠ 0 ∧ revision % q1.fs.shard_size = 0 then
      notify_progress q1 revision
    else q1
  pure (if q2.fs.shard_size = 0 ∧ revision % 1000 = 0 then
          notify_progress q2 revision
        else q2)

/-- The packed-revision loop of `read_revisions` (stats.c:1051-1057).
The C loop advances by `shard_size` and does not terminate when
`shard_size = 0` while `min_unpacked_rev > 0`; that case cannot arise
(non-sharded repositories are never packed) and the model exits the
loop there; theorems about the traversal hypothesise
`0 < shard_size ∨ min_unpacked_rev = 0`. -/
def read_packed (min_unpacked shard : Nat) (use_log : Bool) (q : Query)
    (revision : Nat) : Except Err (Query × Nat) :=
  if revision < min_unpacked ∧ 0 < shard then
    (if use_log then read_log_pack_file q revision
     else read_phys_pack_file q revision) >>= fun q1 =>
      read_packed min_unpacked shard use_log q1 (revision + shard)
  else pure (q, revision)
termination_by min_unpacked - revision
decreasing_by omega

/-- The non-packed loop of `read_revisions` (stats.c:1060-1064). -/
def read_unpacked (head : Nat) (use_log : Bool) (q : Query) (revision : Nat) :
    Except Err Query :=
  if revision ≤ head then
    (if use_log then read_log_revision_file q revision
     else read_phys_revision_file q revision) >>= fun q1 =>
      read_unpacked head use_log q1 (revision + 1)
  else pure q
termination_by head + 1 - revision
decreasing_by omega

/-- `read_revisions` (stats.c:1044-1067). -/
def read_revisions (q : Query) : Except Err Query := do
  let (q1, revision) ← read_packed q.fs.min_unpacked_rev q.fs.shard_size
    q.fs.use_log q 0
  read_unpacked q.fs.head q.fs.use_log q1 revision

/-- `create_query` (stats.c:1176-1215): store the repository dimensions
and the supplied callbacks; the baton stored for the progress callback
is exactly the value received in the `progress_baton` parameter. -/
def create_query (fs : Fs) (progress_func progress_baton : Nat) : Query :=
  { fs := fs
    revisions := []
    notes := []
    progress_func := progress_func
    progress_baton := progress_baton }

/-- Driver-level projection of the final `svn_fs_fs__stats_t`
aggregates computed from the revision array (stats.c:1108-1117). -/
structure StatsD where
  revision_count : Nat
  total_size : Nat
deriving DecidableEq, Repr

/-- The revision-level part of `aggregate_stats` (stats.c:1101-1126),
restricted to the fields present in the driver-level revision info. -/
def aggregate_stats_driver (revisions : List RevisionInfo) : StatsD :=
  { revision_count := revisions.length
    total_size := revisions.foldl (fun acc r => acc + (r.end_ - r.offset)) 0 }

/-- `svn_fs_fs__get_stats` (stats.c:1217-1237).  The source forwards
`progress_func` for BOTH the `progress_func` and the `progress_baton`
parameters of `create_query` (stats.c:1230), which the model reproduces
verbatim; the caller's PROGRESS_BATON argument is never stored.  On
success the aggregated stats and the recorded progress notifications
are returned; any traversal error is propagated and no stats value is
produced. -/
def get_stats (fs : Fs) (progress_func progress_baton : Nat) :
    Except Err (StatsD × List Note) := do
  let query := create_query fs progress_func progress_func
  let q1 ← read_revisions query
  pure (aggregate_stats_driver q1.revisions, q1.notes)

/-! ### Specification statements and concrete fixtures -/

/-- Both histogram sum identities: bucket counts and bucket sums add up
to the `total` line (sizes within the `apr_int64_t` range land in
buckets 0..63). -/
def histogram_sums_match (h : Histogram) : Prop :=
  (∑ k ∈ Finset.range 64, (h.lines k).count) = h.total.count ∧
  (∑ k ∈ Finset.range 64, (h.lines k).sum) = h.total.sum

/-- The claimed behaviour of `add_to_histogram` for size S on
histogram H, together with the totals identity after folding SIZES into
an empty histogram: the bucket index is the smallest `k` with
`2^k > S` (bucket 0 for S = 0), exactly that bucket and the total line
are bumped, and the per-bucket tallies always sum to the total line. -/
def histogram_add_spec (h : Histogram) (s : Nat) (sizes : List Nat) : Prop :=
  (s < 2 ^ histogramShift s ∧ (∀ j, s < 2 ^ j → histogramShift s ≤ j) ∧
    histogramShift 0 = 0) ∧
  ((add_to_histogram h s).total.count = h.total.count + 1 ∧
   (add_to_histogram h s).total.sum = h.total.sum + s ∧
   (add_to_histogram h s).lines (histogramShift s) =
      ⟨(h.lines (histogramShift s)).count + 1, (h.lines (histogramShift s)).sum + s⟩ ∧
   (∀ j, j ≠ histogramShift s → (add_to_histogram h s).lines j = h.lines j)) ∧
  histogram_sums_match (sizes.foldl add_to_histogram emptyHistogram)

/-- The claimed change-count law for a well-formed changes section. -/
def change_count_spec (records : List (List Char × List Char)) : Prop :=
  get_change_count (changes_section records) = records.length ∧
  records.length * 2 = count_newlines (changes_section records) ∧
  ∀ b : List Char, get_change_count b = count_newlines b / 2

/-- The largest-changes state invariant maintained by `add_change`:
entries descending by size, the capacity and entry count pinned at the
initial 64, and `min_size` mirroring the last entry's size once any
insertion has been accepted (before that, the freshly initialized
`min_size = 1` over all-zero entry sizes persists). -/
def LargestInv (lc : LargestChanges) : Prop :=
  descendingBySize lc.changes ∧ lc.changes.length = 64 ∧ lc.count = 64 ∧
  (lc.min_size = last_entry_size lc ∨
    (lc.min_size = 1 ∧ ∀ e ∈ lc.changes, e.size = 0))

/-- The amended largest-changes claim for the state reached by a
sequence of insertions. -/
def largest_changes_spec (lc : LargestChanges) : Prop :=
  descendingBySize lc.changes ∧
  lc.changes.length ≤ lc.count ∧
  (lc.min_size = last_entry_size lc ∨
    (lc.min_size = 1 ∧ ∀ e ∈ lc.changes, e.size = 0)) ∧
  ∀ size revision path, size < lc.min_size →
    add_change_largest lc size revision path = lc

/-- The claimed dedup behaviour when a revision's noderevs reference the
offset O exactly twice: one rep at O, `ref_count` 2, and
`parse_representation` generally returns an already-interned rep
unchanged instead of inserting a duplicate. -/
def rep_dedup_spec (nrs : List NodeRev) (o : Nat) : Prop :=
  (repAt (parse_revision_reps nrs) o).length = 1 ∧
  (∀ r ∈ parse_revision_reps nrs, r.offset = o → r.ref_count = 2) ∧
  ∀ (reps : List Rep) (desc : RepDesc) (r : Rep), SortedReps reps → r ∈ reps →
    r.offset = desc.item_index →
    parse_representation reps desc = (r, reps, bsearch_lower_bound reps desc.item_index)

/-- The claimed kind-assignment invariant for a rep reached after
parsing a revision: its kind is the one assigned by the first reference
to its offset, its `ref_count` counts the references to its offset, and
`unused_rep` occurs only with `ref_count = 0`. -/
def rep_kind_spec (nrs : List NodeRev) (r : Rep) : Prop :=
  (((revision_refs nrs).filter (fun rk => rk.1.item_index = r.offset)).head?).map
      Prod.snd = some r.kind ∧
  r.ref_count =
    ((revision_refs nrs).filter (fun rk => rk.1.item_index = r.offset)).length ∧
  1 ≤ r.ref_count ∧
  (r.kind = RepKind.unused_rep → r.ref_count = 0)

/-- The claimed content of one rep-stats bucket after aggregation over
its reps: uniques collect exactly the `ref_count = 1` reps, shared
exactly the `ref_count > 1` reps, `references` sums the ref counts and
`expanded_size` sums `ref_count * expanded_size`. -/
def bucket_spec (b : RepresentationStats) (reps : List Rep) : Prop :=
  b.uniques =
    (reps.filter (fun r => r.ref_count = 1)).foldl add_rep_pack_stats emptyRepPackStats ∧
  b.shared =
    (reps.filter (fun r => 1 < r.ref_count)).foldl add_rep_pack_stats emptyRepPackStats ∧
  b.references = (reps.map Rep.ref_count).sum ∧
  b.expanded_size = (reps.map (fun r => r.ref_count * r.expanded_size)).sum

/-- All five rep-stats buckets after the aggregation pass over REPS. -/
def aggregate_spec (reps : List Rep) : Prop :=
  bucket_spec (aggregate_reps reps emptyRepBuckets).total_rep_stats reps ∧
  bucket_spec (aggregate_reps reps emptyRepBuckets).file_rep_stats
    (reps.filter (fun r => r.kind = RepKind.file_rep)) ∧
  bucket_spec (aggregate_reps reps emptyRepBuckets).dir_rep_stats
    (reps.filter (fun r => r.kind = RepKind.dir_rep)) ∧
  bucket_spec (aggregate_reps reps emptyRepBuckets).file_prop_rep_stats
    (reps.filter (fun r => r.kind = RepKind.file_property_rep)) ∧
  bucket_spec (aggregate_reps reps emptyRepBuckets).dir_prop_rep_stats
    (reps.filter (fun r => r.kind = RepKind.dir_property_rep))

/-- The amended skip discipline of the p2l entry loop: the first entry
of a block is skipped when it starts before the walk position, and an
entry reaches the item dispatch only if its size is nonzero.  Skipped
entries reach no dispatch, hence contribute to no statistics, and the
loop signals no error for them. -/
def p2l_skip_spec (entries : List P2LEntry) (offset : Nat) : Prop :=
  (∀ e rest, entries = e :: rest → e.offset < offset →
     (process_entries entries offset).2 = (process_entries_aux rest offset 1).2 ∧
     0 ∉ (process_entries entries offset).2) ∧
  ∀ i ∈ (process_entries entries offset).2,
    ∃ e, entries.get? i = some e ∧ e.size ≠ 0

/-- A one-revision repository whose external calls all succeed: head 0,
nothing packed, non-sharded, physical addressing, a 10-byte rev file. -/
def fsOk : Fs :=
  { head := 0
    shard_size := 0
    min_unpacked_rev := 0
    use_log := false
    packed_offset := fun _ => 0
    file_size := fun _ => 10
    p2l_max_offset := fun _ => 0
    cancel := fun _ => pure ()
    parse_rev := fun _ => pure ()
    walk := fun _ => pure () }

/-- Same repository, but the cancellation callback aborts at once. -/
def fsCancelled : Fs :=
  { fsOk with cancel := fun _ => Except.error Err.cancelled }

/-- The query state `read_revisions` produces on `fsOk` with no
progress callback. -/
def qOk : Query :=
  { fs := fsOk
    revisions := [⟨0, 0, 10⟩]
    notes := []
    progress_func := 0
    progress_baton := 0 }

/-! ## Theorems -/

/-! ### Histogram lemmas -/

theorem histogramShiftAux_gt (size shift : Nat) :
    size < 2 ^ histogramShiftAux size shift := by
  unfold histogramShiftAux
  split
  · exact histogramShiftAux_gt size (shift + 1)
  · omega
termination_by size - shift
decreasing_by
  have h2 : shift < 2 ^ shift := Nat.lt_two_pow shift
  omega

theorem histogramShiftAux_min (size shift j : Nat) (hj : size < 2 ^ j)
    (hsj : shift ≤ j) : histogramShiftAux size shift ≤ j := by
  unfold histogramShiftAux
  split
  · rename_i hle
    have h1 : (2 : Nat) ^ shift < 2 ^ j := lt_of_le_of_lt hle hj
    have h2 : shift < j := (Nat.pow_lt_pow_iff_right (by norm_num)).mp h1
    exact histogramShiftAux_min size (shift + 1) j hj h2
  · exact hsj
termination_by size - shift
decreasing_by
  have h2 : shift < 2 ^ shift := Nat.lt_two_pow shift
  omega

theorem histogramShift_gt (size : Nat) : size < 2 ^ histogramShift size :=
  histogramShiftAux_gt size 0

theorem histogramShift_min (size j : Nat) (hj : size < 2 ^ j) :
    histogramShift size ≤ j :=
  histogramShiftAux_min size 0 j hj (Nat.zero_le j)

theorem histogramShift_zero : histogramShift 0 = 0 :=
  Nat.le_zero.mp (histogramShift_min 0 0 (by norm_num))

theorem add_to_histogram_lines (h : Histogram) (s k : Nat) :
    (add_to_histogram h s).lines k =
      if k = histogramShift s then
        ⟨(h.lines k).count + 1, (h.lines k).sum + s⟩
      else h.lines k := rfl

theorem histogram_sums_match_add (h : Histogram) (s : Nat) (hs : s < 2 ^ 62)
    (hinv : histogram_sums_match h) :
    histogram_sums_match (add_to_histogram h s) := by
  obtain ⟨hc, hsum⟩ := hinv
  have hb : histogramShift s < 64 := by
    have := histogramShift_min s 62 hs
    omega
  constructor
  · calc (∑ k ∈ Finset.range 64, ((add_to_histogram h s).lines k).count)
        = ∑ k ∈ Finset.range 64,
            ((h.lines k).count + if k = histogramShift s then 1 else 0) := by
          refine Finset.sum_congr rfl (fun k _ => ?_)
          rw [add_to_histogram_lines]
          by_cases hk : k = histogramShift s <;> simp [hk]
      _ = (∑ k ∈ Finset.range 64, (h.lines k).count) +
            ∑ k ∈ Finset.range 64, (if k = histogramShift s then 1 else 0) := by
          rw [Finset.sum_add_distrib]
      _ = h.total.count + 1 := by
          rw [hc, Finset.sum_ite_eq' (Finset.range 64) (histogramShift s) (fun _ => 1)]
          simp [Finset.mem_range, hb]
      _ = (add_to_histogram h s).total.count := rfl
  · calc (∑ k ∈ Finset.range 64, ((add_to_histogram h s).lines k).sum)
        = ∑ k ∈ Finset.range 64,
            ((h.lines k).sum + if k = histogramShift s then s else 0) := by
          refine Finset.sum_congr rfl (fun k _ => ?_)
          rw [add_to_histogram_lines]
          by_cases hk : k = histogramShift s <;> simp [hk]
      _ = (∑ k ∈ Finset.range 64, (h.lines k).sum) +
            ∑ k ∈ Finset.range 64, (if k = histogramShift s then s else 0) := by
          rw [Finset.sum_add_distrib]
      _ = h.total.sum + s := by
          rw [hsum, Finset.sum_ite_eq' (Finset.range 64) (histogramShift s) (fun _ => s)]
          simp [Finset.mem_range, hb]
      _ = (add_to_histogram h s).total.sum := rfl

theorem histogram_sums_match_foldl (sizes : List Nat) (h : Histogram)
    (hs : ∀ x ∈ sizes, x < 2 ^ 62) (hinv : histogram_sums_match h) :
    histogram_sums_match (sizes.foldl add_to_histogram h) := by
  induction sizes generalizing h with
  | nil => exact hinv
  | cons x xs ih =>
    exact ih (add_to_histogram h x) (fun y hy => hs y (by simp [hy]))
      (histogram_sums_match_add h x (hs x (by simp)) hinv)

theorem histogram_sums_match_empty : histogram_sums_match emptyHistogram := by
  constructor <;> simp [emptyHistogram]

/-- C8: `add_to_histogram` adds size S to the total line and to exactly
the bucket `k` with `k` the smallest integer such that `2^k > S`
(bucket 0 for S = 0), leaving every other bucket unchanged, and after
any sequence of additions the bucket counts and sums each add up to the
total line.  Sizes are restricted to `s < 2^62`, the range in which the
C shift loop on `apr_int64_t` is free of signed overflow. -/
theorem add_to_histogram_law (h : Histogram) (s : Nat) (sizes : List Nat)
    (hs : s < 2 ^ 62) (hsizes : ∀ x ∈ sizes, x < 2 ^ 62) :
    histogram_add_spec h s sizes := by
  refine ⟨⟨histogramShift_gt s, fun j hj => histogramShift_min s j hj,
    histogramShift_zero⟩, ⟨rfl, rfl, ?_, fun j hj => ?_⟩, ?_⟩
  · rw [add_to_histogram_lines]
    simp
  · rw [add_to_histogram_lines]
    simp [hj]
  · exact histogram_sums_match_foldl sizes emptyHistogram hsizes
      histogram_sums_match_empty

theorem add_to_histogram_law_witness :
    ((10 : Nat) < 2 ^ 62 ∧ ∀ x ∈ [(10 : Nat), 0, 17], x < 2 ^ 62) ∧
    histogram_add_spec emptyHistogram 10 [10, 0, 17] :=
  ⟨⟨by norm_num, by decide⟩,
   add_to_histogram_law emptyHistogram 10 [10, 0, 17] (by norm_num) (by decide)⟩

/-! ### Change-count lemmas -/

theorem count_newlines_append (a b : List Char) :
    count_newlines (a ++ b) = count_newlines a + count_newlines b := by
  induction a with
  | nil => simp [count_newlines]
  | cons c rest ih => simp [count_newlines, ih]; omega

theorem count_newlines_of_not_mem (l : List Char) (h : '\n' ∉ l) :
    count_newlines l = 0 := by
  induction l with
  | nil => rfl
  | cons c rest ih =>
    have hc : c ≠ '\n' := fun hc => h (by simp [hc])
    simp [count_newlines, hc]
    exact ih (fun hm => h (by simp [hm]))

theorem count_newlines_section (records : List (List Char × List Char))
    (hwf : ∀ r ∈ records, '\n' ∉ r.1 ∧ '\n' ∉ r.2) :
    count_newlines (changes_section records) = 2 * records.length := by
  induction records with
  | nil => rfl
  | cons r rs ih =>
    have hr := hwf r (by simp)
    have h1 : changes_section (r :: rs) =
        (r.1 ++ ['\n'] ++ r.2 ++ ['\n']) ++ changes_section rs := by
      simp [changes_section]
    have h2 : count_newlines ['\n'] = 1 := by decide
    rw [h1]
    simp only [count_newlines_append]
    rw [count_newlines_of_not_mem r.1 hr.1, count_newlines_of_not_mem r.2 hr.2,
      ih (fun x hx => hwf x (by simp [hx])), h2]
    simp
    omega

/-- C9: for a well-formed changes section of N two-line records,
`get_change_count` returns exactly N, twice N equals the newline count,
and in general `get_change_count` is the newline count divided by 2. -/
theorem get_change_count_law (records : List (List Char × List Char))
    (hwf : ∀ r ∈ records, '\n' ∉ r.1 ∧ '\n' ∉ r.2) :
    change_count_spec records := by
  refine ⟨?_, ?_, fun b => rfl⟩
  · rw [get_change_count, count_newlines_section records hwf]
    omega
  · rw [count_newlines_section records hwf]
    omega

theorem get_change_count_law_witness :
    (∀ r ∈ [(['a'], ['b', 'c']), (['d'], ([] : List Char))],
        '\n' ∉ r.1 ∧ '\n' ∉ r.2) ∧
    change_count_spec [(['a'], ['b', 'c']), (['d'], [])] :=
  ⟨by decide, get_change_count_law [(['a'], ['b', 'c']), (['d'], [])] (by decide)⟩

/-! ### Largest-changes lemmas -/

theorem add_change_largest_accepted (lc : LargestChanges) (size revision : Nat)
    (path : String) (h : lc.min_size ≤ size) :
    add_change_largest lc size revision path =
      { lc with
        changes := (shift_in ⟨size, revision, path⟩ lc.changes.dropLast.reverse).reverse
        min_size :=
          ((((shift_in ⟨size, revision, path⟩
              lc.changes.dropLast.reverse).reverse).getLast?).map
            LargeChangeInfo.size).getD 0 } := by
  rw [add_change_largest, if_pos h]

theorem add_change_largest_rejected (lc : LargestChanges) (size revision : Nat)
    (path : String) (h : ¬ lc.min_size ≤ size) :
    add_change_largest lc size revision path = lc := by
  rw [add_change_largest, if_neg h]

theorem shift_in_length (info : LargeChangeInfo) (xs : List LargeChangeInfo) :
    (shift_in info xs).length = xs.length + 1 := by
  induction xs with
  | nil => rfl
  | cons x ys ih =>
    rw [shift_in]
    split
    · simp [ih]
    · simp

theorem shift_in_ascending (info : LargeChangeInfo) (xs : List LargeChangeInfo)
    (h : xs.Chain' (fun a b => a.size ≤ b.size)) :
    (shift_in info xs).Chain' (fun a b => a.size ≤ b.size) := by
  induction xs with
  | nil => simp [shift_in]
  | cons x ys ih =>
    rw [shift_in]
    split
    · rename_i hx
      rw [List.chain'_cons']
      refine ⟨?_, ih h.tail⟩
      intro b hb
      cases ys with
      | nil =>
        simp [shift_in] at hb
        subst hb
        omega
      | cons y zs =>
        rw [shift_in] at hb
        split at hb
        · simp at hb
          subst hb
          have := (List.chain'_cons.mp h).1
          omega
        · simp at hb
          subst hb
          omega
    · rename_i hx
      rw [List.chain'_cons']
      refine ⟨?_, h⟩
      intro b hb
      simp at hb
      subst hb
      omega

theorem descendingBySize_dropLast (l : List LargeChangeInfo)
    (h : descendingBySize l) : descendingBySize l.dropLast := by
  rcases eq_or_ne l [] with rfl | hne
  · simp [descendingBySize]
  · have heq := List.dropLast_append_getLast hne
    rw [descendingBySize, ← heq, List.chain'_append] at h
    exact h.1

theorem ascending_reverse_of_descending (l : List LargeChangeInfo)
    (h : descendingBySize l) :
    l.reverse.Chain' (fun a b => a.size ≤ b.size) := by
  rw [List.chain'_reverse]
  exact h

theorem descending_of_reverse_ascending (l : List LargeChangeInfo)
    (h : l.Chain' (fun a b => a.size ≤ b.size)) :
    descendingBySize l.reverse := by
  rw [descendingBySize, List.chain'_reverse]
  exact h

theorem add_change_largest_inv (lc : LargestChanges) (size revision : Nat)
    (path : String) (hinv : LargestInv lc) :
    LargestInv (add_change_largest lc size revision path) := by
  obtain ⟨hdesc, hlen, hcount, hmin⟩ := hinv
  by_cases hacc : lc.min_size ≤ size
  · rw [add_change_largest_accepted lc size revision path hacc]
    refine ⟨?_, ?_, hcount, Or.inl ?_⟩
    · exact descending_of_reverse_ascending _
        (shift_in_ascending _ _
          (ascending_reverse_of_descending _ (descendingBySize_dropLast _ hdesc)))
    · simp [shift_in_length, hlen]
    · simp [last_entry_size]
  · rw [add_change_largest_rejected lc size revision path hacc]
    exact ⟨hdesc, hlen, hcount, hmin⟩

theorem chain'_replicate_zero_entry (n : Nat) :
    List.Chain' (fun a b : LargeChangeInfo => b.size ≤ a.size)
      (List.replicate n ⟨0, 0, ""⟩) := by
  induction n with
  | zero => simp
  | succ m ih =>
    rw [List.replicate_succ, List.chain'_cons']
    refine ⟨?_, ih⟩
    intro b hb
    cases m with
    | zero => simp at hb
    | succ k =>
      rw [List.replicate_succ] at hb
      simp at hb
      subst hb
      simp

theorem initialize_largest_changes_inv : LargestInv (initialize_largest_changes 64) := by
  refine ⟨?_, by simp [initialize_largest_changes], rfl, Or.inr ⟨rfl, ?_⟩⟩
  · rw [initialize_largest_changes, descendingBySize]
    exact chain'_replicate_zero_entry 64
  · intro e he
    rw [List.eq_of_mem_replicate he]

theorem run_largest_inv (inserts : List (Nat × Nat × String)) :
    LargestInv (run_largest inserts) := by
  rw [run_largest]
  have h : ∀ (l : List (Nat × Nat × String)) (st : LargestChanges), LargestInv st →
      LargestInv (l.foldl (fun st ins => add_change_largest st ins.1 ins.2.1 ins.2.2) st) := by
    intro l
    induction l with
    | nil => exact fun st hst => hst
    | cons x xs ih =>
      intro st hst
      exact ih _ (add_change_largest_inv st x.1 x.2.1 x.2.2 hst)
  exact h inserts _ initialize_largest_changes_inv

/-- C5 (amended): starting from the initial largest-changes state, after
any sequence of insertions the list is sorted descending by size and its
length never exceeds the capacity; an insertion whose size is below
`min_size` leaves the state unchanged; and `min_size` equals the size of
the last stored entry once any insertion has been accepted, while before
that it keeps its initial value 1 over all-zero entry sizes. -/
theorem largest_changes_after_inserts (inserts : List (Nat × Nat × String)) :
    largest_changes_spec (run_largest inserts) := by
  obtain ⟨hdesc, hlen, hcount, hmin⟩ := run_largest_inv inserts
  refine ⟨hdesc, by omega, hmin, ?_⟩
  intro size revision path hlt
  exact add_change_largest_rejected _ _ _ _ (by omega)

theorem largest_changes_after_inserts_witness :
    largest_changes_spec (run_largest [(10, 1, "a"), (3, 2, "b")]) :=
  largest_changes_after_inserts [(10, 1, "a"), (3, 2, "b")]

/-- C5 counterexample: inserting a single change of size 0 into the
freshly initialized accumulator is discarded (`0 < min_size = 1`), so
`min_size` remains 1 while the last stored entry has size 0: the claimed
invariant `min_size == last.size` fails for this insertion sequence. -/
theorem largest_changes_min_size_cex :
    ¬ (descendingBySize (run_largest [(0, 5, "p")]).changes ∧
       (run_largest [(0, 5, "p")]).changes.length ≤ (run_largest [(0, 5, "p")]).count ∧
       (run_largest [(0, 5, "p")]).min_size =
         last_entry_size (run_largest [(0, 5, "p")])) := by
  intro h
  have h3 := h.2.2
  revert h3
  decide

/-! ### Representation registry lemmas -/

theorem bump_rep_offset (r : Rep) (k : RepKind) : (bump_rep r k).offset = r.offset := by
  rw [bump_rep]
  split <;> rfl

theorem bump_rep_ref_count (r : Rep) (k : RepKind) :
    (bump_rep r k).ref_count = r.ref_count + 1 := by
  rw [bump_rep]
  split <;> rfl

theorem bsearch_cons_lt (x : Rep) (xs : List Rep) (o : Nat) (hx : x.offset < o) :
    bsearch_lower_bound (x :: xs) o = bsearch_lower_bound xs o + 1 := by
  rw [bsearch_lower_bound, if_pos hx]

theorem bsearch_cons_ge (x : Rep) (xs : List Rep) (o : Nat) (hx : ¬ x.offset < o) :
    bsearch_lower_bound (x :: xs) o = 0 := by
  rw [bsearch_lower_bound, if_neg hx]

theorem reference_rep_nil (desc : RepDesc) (k : RepKind) :
    reference_rep [] desc k = [fresh_rep desc k] := rfl

theorem reference_rep_cons_lt (x : Rep) (xs : List Rep) (desc : RepDesc) (k : RepKind)
    (hx : x.offset < desc.item_index) :
    reference_rep (x :: xs) desc k = x :: reference_rep xs desc k := by
  simp only [reference_rep, parse_representation, find_representation,
    bsearch_cons_lt x xs desc.item_index hx]
  have hget : (x :: xs).get? (bsearch_lower_bound xs desc.item_index + 1)
      = xs.get? (bsearch_lower_bound xs desc.item_index) := rfl
  rw [hget]
  rcases hg : xs.get? (bsearch_lower_bound xs desc.item_index) with _ | r
  · simp [insertAt, setAt]
  · by_cases hr : r.offset = desc.item_index <;> simp [hr, insertAt, setAt]

theorem reference_rep_cons_eq (x : Rep) (xs : List Rep) (desc : RepDesc) (k : RepKind)
    (hx : x.offset = desc.item_index) :
    reference_rep (x :: xs) desc k = bump_rep x k :: xs := by
  have hlb : bsearch_lower_bound (x :: xs) desc.item_index = 0 :=
    bsearch_cons_ge x xs desc.item_index (by omega)
  simp only [reference_rep, parse_representation, find_representation, hlb]
  simp [hx, setAt, bump_rep]

theorem reference_rep_cons_gt (x : Rep) (xs : List Rep) (desc : RepDesc) (k : RepKind)
    (hx : desc.item_index < x.offset) :
    reference_rep (x :: xs) desc k = fresh_rep desc k :: x :: xs := by
  have hlb : bsearch_lower_bound (x :: xs) desc.item_index = 0 :=
    bsearch_cons_ge x xs desc.item_index (by omega)
  have hne : x.offset ≠ desc.item_index := by omega
  simp only [reference_rep, parse_representation, find_representation, hlb]
  simp [hne, insertAt, setAt, bump_rep, fresh_rep]

theorem reference_rep_offsets (reps : List Rep) (desc : RepDesc) (k : RepKind) :
    ∀ y ∈ reference_rep reps desc k,
      y.offset = desc.item_index ∨ y.offset ∈ reps.map Rep.offset := by
  induction reps with
  | nil =>
    rw [reference_rep_nil]
    intro y hy
    simp at hy
    subst hy
    exact Or.inl rfl
  | cons x xs ih =>
    rcases Nat.lt_trichotomy x.offset desc.item_index with hx | hx | hx
    · rw [reference_rep_cons_lt x xs desc k hx]
      intro y hy
      rcases List.mem_cons.mp hy with hy | hy
      · subst hy
        exact Or.inr (by simp)
      · rcases ih y hy with h | h
        · exact Or.inl h
        · exact Or.inr (by simp [h])
    · rw [reference_rep_cons_eq x xs desc k hx]
      intro y hy
      rcases List.mem_cons.mp hy with hy | hy
      · subst hy
        exact Or.inl (by rw [bump_rep_offset, hx])
      · exact Or.inr (by simp [List.mem_map]; exact Or.inr ⟨y, hy, rfl⟩)
    · rw [reference_rep_cons_gt x xs desc k hx]
      intro y hy
      rcases List.mem_cons.mp hy with hy | hy
      · subst hy
        exact Or.inl rfl
      · rcases List.mem_cons.mp hy with hy | hy
        · subst hy
          exact Or.inr (by simp)
        · exact Or.inr (by simp [List.mem_map]; exact Or.inr ⟨y, hy, rfl⟩)

theorem reference_rep_sorted (reps : List Rep) (desc : RepDesc) (k : RepKind)
    (hs : SortedReps reps) : SortedReps (reference_rep reps desc k) := by
  induction reps with
  | nil =>
    rw [reference_rep_nil]
    exact List.pairwise_singleton _ _
  | cons x xs ih =>
    obtain ⟨hxall, hxs⟩ := List.pairwise_cons.mp hs
    rcases Nat.lt_trichotomy x.offset desc.item_index with hx | hx | hx
    · rw [reference_rep_cons_lt x xs desc k hx]
      refine List.pairwise_cons.mpr ⟨?_, ih hxs⟩
      intro y hy
      rcases reference_rep_offsets xs desc k y hy with h | h
      · omega
      · rcases List.mem_map.mp h with ⟨z, hz, hzy⟩
        have := hxall z hz
        omega
    · rw [reference_rep_cons_eq x xs desc k hx]
      refine List.pairwise_cons.mpr ⟨?_, hxs⟩
      intro y hy
      rw [bump_rep_offset]
      exact hxall y hy
    · rw [reference_rep_cons_gt x xs desc k hx]
      refine List.pairwise_cons.mpr ⟨?_, hs⟩
      intro y hy
      have hfo : (fresh_rep desc k).offset = desc.item_index := rfl
      rcases List.mem_cons.mp hy with hy | hy
      · subst hy
        omega
      · have := hxall y hy
        rw [hfo]
        omega

theorem repAt_cons (x : Rep) (xs : List Rep) (o : Nat) :
    repAt (x :: xs) o = if x.offset = o then x :: repAt xs o else repAt xs o := by
  rw [repAt, repAt, List.filter_cons]
  by_cases hx : x.offset = o <;> simp [hx]

theorem repAt_nil_of_all_gt (reps : List Rep) (o : Nat)
    (hall : ∀ y ∈ reps, o < y.offset) : repAt reps o = [] := by
  rw [repAt, List.filter_eq_nil_iff]
  intro a ha
  have := hall a ha
  simp
  omega

theorem reference_rep_repAt_eq (reps : List Rep) (desc : RepDesc) (k : RepKind)
    (hs : SortedReps reps) :
    repAt (reference_rep reps desc k) desc.item_index =
      singleStep (repAt reps desc.item_index) (desc, k) := by
  induction reps with
  | nil =>
    rw [reference_rep_nil]
    have : repAt ([] : List Rep) desc.item_index = [] := rfl
    rw [this, repAt_cons]
    simp [singleStep, fresh_rep]
    rfl
  | cons x xs ih =>
    obtain ⟨hxall, hxs⟩ := List.pairwise_cons.mp hs
    rcases Nat.lt_trichotomy x.offset desc.item_index with hx | hx | hx
    · rw [reference_rep_cons_lt x xs desc k hx, repAt_cons, repAt_cons]
      rw [if_neg (by omega), if_neg (by omega)]
      exact ih hxs
    · rw [reference_rep_cons_eq x xs desc k hx, repAt_cons, repAt_cons]
      rw [if_pos (by rw [bump_rep_offset]; exact hx), if_pos hx]
      have hnil : repAt xs desc.item_index = [] := by
        apply repAt_nil_of_all_gt
        intro y hy
        have := hxall y hy
        omega
      rw [hnil, singleStep]
    · have hxne : ¬ x.offset = desc.item_index := by omega
      have hnil : repAt xs desc.item_index = [] := by
        apply repAt_nil_of_all_gt
        intro y hy
        have := hxall y hy
        omega
      have hrhs : repAt (x :: xs) desc.item_index = [] := by
        rw [repAt_cons, if_neg hxne, hnil]
      have hfo : (fresh_rep desc k).offset = desc.item_index := rfl
      rw [reference_rep_cons_gt x xs desc k hx, repAt_cons, if_pos hfo, hrhs]
      rfl

theorem reference_rep_repAt_ne (reps : List Rep) (desc : RepDesc) (k : RepKind)
    (o : Nat) (ho : o ≠ desc.item_index) :
    repAt (reference_rep reps desc k) o = repAt reps o := by
  induction reps with
  | nil =>
    rw [reference_rep_nil, repAt_cons]
    have hfo : (fresh_rep desc k).offset = desc.item_index := rfl
    rw [if_neg (by rw [hfo]; omega)]
  | cons x xs ih =>
    rcases Nat.lt_trichotomy x.offset desc.item_index with hx | hx | hx
    · rw [reference_rep_cons_lt x xs desc k hx, repAt_cons, repAt_cons, ih]
    · rw [reference_rep_cons_eq x xs desc k hx, repAt_cons, repAt_cons]
      rw [bump_rep_offset]
      rw [if_neg (by omega), if_neg (by omega)]
    · rw [reference_rep_cons_gt x xs desc k hx, repAt_cons]
      have hfo : (fresh_rep desc k).offset = desc.item_index := rfl
      rw [if_neg (by rw [hfo]; omega)]

theorem processRefs_sorted (refs : List (RepDesc × RepKind)) (reps : List Rep)
    (hs : SortedReps reps) : SortedReps (processRefs reps refs) := by
  induction refs generalizing reps with
  | nil => exact hs
  | cons rk rest ih =>
    rw [processRefs, List.foldl_cons]
    exact ih (refStep reps rk) (reference_rep_sorted reps rk.1 rk.2 hs)

theorem processRefs_repAt (refs : List (RepDesc × RepKind)) (reps : List Rep)
    (o : Nat) (hs : SortedReps reps) :
    repAt (processRefs reps refs) o =
      singleFold (repAt reps o) (refs.filter (fun rk => rk.1.item_index = o)) := by
  induction refs generalizing reps with
  | nil => rfl
  | cons rk rest ih =>
    rw [processRefs, List.foldl_cons, List.filter_cons]
    have hsorted : SortedReps (refStep reps rk) :=
      reference_rep_sorted reps rk.1 rk.2 hs
    by_cases hrk : rk.1.item_index = o
    · rw [if_pos (by simp [hrk])]
      rw [singleFold, List.foldl_cons]
      have h1 : repAt (refStep reps rk) o = singleStep (repAt reps o) rk := by
        rw [refStep, ← hrk]
        rw [reference_rep_repAt_eq reps rk.1 rk.2 hs]
      rw [← processRefs, ih (refStep reps rk) hsorted, h1]
      rfl
    · rw [if_neg (by simp [hrk])]
      have h1 : repAt (refStep reps rk) o = repAt reps o := by
        rw [refStep]
        exact reference_rep_repAt_ne reps rk.1 rk.2 o (fun h => hrk h.symm)
      rw [← processRefs, ih (refStep reps rk) hsorted, h1]

theorem singleFold_bump (rest : List (RepDesc × RepKind)) (r : Rep)
    (h1 : 1 ≤ r.ref_count) :
    singleFold [r] rest = [{ r with ref_count := r.ref_count + rest.length }] := by
  induction rest generalizing r with
  | nil => simp [singleFold]
  | cons rk rest ih =>
    rw [singleFold, List.foldl_cons]
    have hstep : singleStep [r] rk = [{ r with ref_count := r.ref_count + 1 }] := by
      rw [singleStep, bump_rep]
      rw [if_neg (by simp; omega)]
    rw [hstep, ← singleFold, ih _ (by simp)]
    have harith : r.ref_count + 1 + rest.length = r.ref_count + (rest.length + 1) := by
      omega
    simp [harith]

theorem processRefs_nil_repAt_nil (refs : List (RepDesc × RepKind)) (o : Nat)
    (hf : refs.filter (fun rk => rk.1.item_index = o) = []) :
    repAt (processRefs [] refs) o = [] := by
  rw [processRefs_repAt refs [] o List.Pairwise.nil, hf]
  rfl

theorem processRefs_nil_repAt_cons (refs : List (RepDesc × RepKind)) (o : Nat)
    (f : RepDesc × RepKind) (rest : List (RepDesc × RepKind))
    (hf : refs.filter (fun rk => rk.1.item_index = o) = f :: rest) :
    repAt (processRefs [] refs) o =
      [{ fresh_rep f.1 f.2 with ref_count := 1 + rest.length }] := by
  rw [processRefs_repAt refs [] o List.Pairwise.nil, hf]
  rw [singleFold, List.foldl_cons]
  have hstep : singleStep (repAt [] o) f = [fresh_rep f.1 f.2] := rfl
  rw [hstep, ← singleFold, singleFold_bump rest (fresh_rep f.1 f.2) (by rw [fresh_rep])]
  have : (fresh_rep f.1 f.2).ref_count = 1 := rfl
  rw [this]

theorem read_noderev_reps_eq (reps : List Rep) (nr : NodeRev) :
    read_noderev_reps reps nr = processRefs reps (noderev_refs nr) := by
  rw [read_noderev_reps, noderev_refs, processRefs]
  rcases hd : nr.data_rep with _ | d <;> rcases hp : nr.prop_rep with _ | p <;>
    simp [refStep]

theorem parse_revision_reps_eq (nrs : List NodeRev) :
    parse_revision_reps nrs = processRefs [] (revision_refs nrs) := by
  have h : ∀ (l : List NodeRev) (reps : List Rep),
      l.foldl read_noderev_reps reps = processRefs reps (l.map noderev_refs).flatten := by
    intro l
    induction l with
    | nil => intro reps; rfl
    | cons nr rest ih =>
      intro reps
      rw [List.foldl_cons, ih, read_noderev_reps_eq, List.map_cons,
        List.flatten_cons, processRefs, processRefs, processRefs,
        List.foldl_append]
  exact h nrs []

theorem noderev_refs_kind_ne_unused (nr : NodeRev) (rk : RepDesc × RepKind)
    (h : rk ∈ noderev_refs nr) : rk.2 ≠ RepKind.unused_rep := by
  rw [noderev_refs] at h
  rcases hd : nr.data_rep with _ | d <;> rcases hp : nr.prop_rep with _ | p <;>
    rw [hd, hp] at h <;> rcases hk : nr.kind <;> simp [hk] at h <;>
    first
      | (rcases h with h | h <;> rw [h] <;> simp)
      | (rw [h]; simp)

theorem revision_refs_kind_ne_unused (nrs : List NodeRev) (rk : RepDesc × RepKind)
    (h : rk ∈ revision_refs nrs) : rk.2 ≠ RepKind.unused_rep := by
  rw [revision_refs, List.mem_flatten] at h
  obtain ⟨l, hl, hrk⟩ := h
  obtain ⟨nr, _, rfl⟩ := List.mem_map.mp hl
  exact noderev_refs_kind_ne_unused nr rk hrk

/-- C3: every rep present after parsing a revision's noderevs carries
the kind assigned by the first reference to its offset (derived from
that node's kind and the data/property role), never changed by later
references; its ref count counts the references to its offset and is at
least 1, and `unused_rep` implies ref count 0. -/
theorem rep_kind_first_reference (nrs : List NodeRev) (r : Rep)
    (hr : r ∈ parse_revision_reps nrs) : rep_kind_spec nrs r := by
  have hmem : r ∈ repAt (parse_revision_reps nrs) r.offset := by
    rw [repAt, List.mem_filter]
    exact ⟨hr, by simp⟩
  rw [parse_revision_reps_eq] at hmem
  rcases hf : (revision_refs nrs).filter (fun rk => rk.1.item_index = r.offset)
    with _ | ⟨f, rest⟩
  · rw [processRefs_nil_repAt_nil _ _ hf] at hmem
    exact absurd hmem (List.not_mem_nil r)
  · rw [processRefs_nil_repAt_cons _ _ f rest hf] at hmem
    have hreq : r = { fresh_rep f.1 f.2 with ref_count := 1 + rest.length } := by
      simpa using hmem
    have hkind : r.kind = f.2 := by rw [hreq]; rfl
    have hrc : r.ref_count = 1 + rest.length := by rw [hreq]
    refine ⟨?_, ?_, ?_, ?_⟩
    · rw [hf]
      simp [hkind]
    · rw [hf, hrc, List.length_cons]
      omega
    · omega
    · intro hk
      have hfmem : f ∈ (revision_refs nrs).filter
          (fun rk => rk.1.item_index = r.offset) := by
        rw [hf]; simp
      have := revision_refs_kind_ne_unused nrs f (List.mem_of_mem_filter hfmem)
      rw [hkind] at hk
      exact absurd hk this

theorem rep_kind_first_reference_witness :
    (⟨5, 10, 12, 0, 1, 0, RepKind.file_rep⟩ : Rep) ∈
      parse_revision_reps
        [{ kind := NodeKind.file, data_rep := some ⟨0, 5, 10, 12⟩,
           prop_rep := none, predecessor := false, created_path := "f" }] ∧
    rep_kind_spec
      [{ kind := NodeKind.file, data_rep := some ⟨0, 5, 10, 12⟩,
         prop_rep := none, predecessor := false, created_path := "f" }]
      ⟨5, 10, 12, 0, 1, 0, RepKind.file_rep⟩ :=
  ⟨by decide, rep_kind_first_reference _ _ (by decide)⟩

theorem get_lower_bound (reps : List Rep) (r : Rep) (o : Nat) (hs : SortedReps reps)
    (hr : r ∈ reps) (hro : r.offset = o) :
    reps.get? (bsearch_lower_bound reps o) = some r := by
  induction reps with
  | nil => exact absurd hr (List.not_mem_nil r)
  | cons x xs ih =>
    obtain ⟨hxall, hxs⟩ := List.pairwise_cons.mp hs
    rcases List.mem_cons.mp hr with rfl | hr
    · rw [bsearch_cons_ge r xs o (by omega)]
      rfl
    · have hxo : x.offset < o := by
        have := hxall r hr
        omega
      rw [bsearch_cons_lt x xs o hxo]
      exact ih hxs hr

theorem find_representation_found (reps : List Rep) (r : Rep) (o : Nat)
    (hs : SortedReps reps) (hr : r ∈ reps) (hro : r.offset = o) :
    find_representation reps o = (bsearch_lower_bound reps o, some r) := by
  simp only [find_representation, get_lower_bound reps r o hs hr hro]
  rw [if_pos hro]

theorem parse_representation_found (reps : List Rep) (desc : RepDesc) (r : Rep)
    (hs : SortedReps reps) (hr : r ∈ reps) (hro : r.offset = desc.item_index) :
    parse_representation reps desc =
      (r, reps, bsearch_lower_bound reps desc.item_index) := by
  simp only [parse_representation,
    find_representation_found reps r desc.item_index hs hr hro]

/-- C2: when a revision's noderevs reference offset O exactly twice,
the parsed revision holds exactly one rep at O with `ref_count` 2; and
in general `parse_representation` returns an already-interned rep
together with the unchanged representation list rather than inserting a
duplicate. -/
theorem rep_dedup_two_references (nrs : List NodeRev) (o : Nat)
    (h2 : ((revision_refs nrs).filter (fun rk => rk.1.item_index = o)).length = 2) :
    rep_dedup_spec nrs o := by
  rcases hf : (revision_refs nrs).filter (fun rk => rk.1.item_index = o)
    with _ | ⟨f, rest⟩
  · rw [hf] at h2
    exact absurd h2 (by simp)
  · have hrest : rest.length = 1 := by
      rw [hf] at h2
      simp at h2
      omega
    refine ⟨?_, ?_, ?_⟩
    · rw [parse_revision_reps_eq, processRefs_nil_repAt_cons _ _ f rest hf]
      rfl
    · intro r hr hro
      have hmem : r ∈ repAt (parse_revision_reps nrs) o := by
        rw [repAt, List.mem_filter]
        exact ⟨hr, by simp [hro]⟩
      rw [parse_revision_reps_eq, processRefs_nil_repAt_cons _ _ f rest hf]
        at hmem
      have hreq : r = { fresh_rep f.1 f.2 with ref_count := 1 + rest.length } := by
        simpa using hmem
      rw [hreq, hrest]
    · intro reps desc r hs hr hro
      exact parse_representation_found reps desc r hs hr hro

theorem rep_dedup_two_references_witness :
    ((revision_refs
        [{ kind := NodeKind.file, data_rep := some ⟨0, 5, 10, 12⟩,
           prop_rep := none, predecessor := false, created_path := "f" },
         { kind := NodeKind.file, data_rep := some ⟨0, 5, 10, 12⟩,
           prop_rep := none, predecessor := true, created_path := "g" }]).filter
        (fun rk => rk.1.item_index = 5)).length = 2 ∧
    rep_dedup_spec
      [{ kind := NodeKind.file, data_rep := some ⟨0, 5, 10, 12⟩,
         prop_rep := none, predecessor := false, created_path := "f" },
       { kind := NodeKind.file, data_rep := some ⟨0, 5, 10, 12⟩,
         prop_rep := none, predecessor := true, created_path := "g" }] 5 :=
  ⟨by decide, rep_dedup_two_references _ 5 (by decide)⟩

/-! ### Aggregation lemmas -/

theorem aggregate_rep_total (st : RepBuckets) (rep : Rep) :
    (aggregate_rep st rep).total_rep_stats = add_rep_stats st.total_rep_stats rep := by
  cases hk : rep.kind <;> simp [aggregate_rep, hk]

theorem aggregate_rep_file (st : RepBuckets) (rep : Rep) :
    (aggregate_rep st rep).file_rep_stats =
      if rep.kind = RepKind.file_rep then add_rep_stats st.file_rep_stats rep
      else st.file_rep_stats := by
  cases hk : rep.kind <;> simp [aggregate_rep, hk]

theorem aggregate_rep_dir (st : RepBuckets) (rep : Rep) :
    (aggregate_rep st rep).dir_rep_stats =
      if rep.kind = RepKind.dir_rep then add_rep_stats st.dir_rep_stats rep
      else st.dir_rep_stats := by
  cases hk : rep.kind <;> simp [aggregate_rep, hk]

theorem aggregate_rep_file_prop (st : RepBuckets) (rep : Rep) :
    (aggregate_rep st rep).file_prop_rep_stats =
      if rep.kind = RepKind.file_property_rep then
        add_rep_stats st.file_prop_rep_stats rep
      else st.file_prop_rep_stats := by
  cases hk : rep.kind <;> simp [aggregate_rep, hk]

theorem aggregate_rep_dir_prop (st : RepBuckets) (rep : Rep) :
    (aggregate_rep st rep).dir_prop_rep_stats =
      if rep.kind = RepKind.dir_property_rep then
        add_rep_stats st.dir_prop_rep_stats rep
      else st.dir_prop_rep_stats := by
  cases hk : rep.kind <;> simp [aggregate_rep, hk]

theorem aggregate_reps_total (reps : List Rep) (st : RepBuckets) :
    (aggregate_reps reps st).total_rep_stats =
      reps.foldl add_rep_stats st.total_rep_stats := by
  induction reps generalizing st with
  | nil => rfl
  | cons r rest ih =>
    rw [aggregate_reps, List.foldl_cons, List.foldl_cons, ← aggregate_reps, ih,
      aggregate_rep_total]

theorem aggregate_reps_file (reps : List Rep) (st : RepBuckets) :
    (aggregate_reps reps st).file_rep_stats =
      (reps.filter (fun r => r.kind = RepKind.file_rep)).foldl add_rep_stats
        st.file_rep_stats := by
  induction reps generalizing st with
  | nil => rfl
  | cons r rest ih =>
    rw [aggregate_reps, List.foldl_cons, ← aggregate_reps, ih, List.filter_cons]
    by_cases hk : r.kind = RepKind.file_rep
    · rw [if_pos (by simp [hk]), List.foldl_cons, aggregate_rep_file, if_pos hk]
    · rw [if_neg (by simp [hk]), aggregate_rep_file, if_neg hk]

theorem aggregate_reps_dir (reps : List Rep) (st : RepBuckets) :
    (aggregate_reps reps st).dir_rep_stats =
      (reps.filter (fun r => r.kind = RepKind.dir_rep)).foldl add_rep_stats
        st.dir_rep_stats := by
  induction reps generalizing st with
  | nil => rfl
  | cons r rest ih =>
    rw [aggregate_reps, List.foldl_cons, ← aggregate_reps, ih, List.filter_cons]
    by_cases hk : r.kind = RepKind.dir_rep
    · rw [if_pos (by simp [hk]), List.foldl_cons, aggregate_rep_dir, if_pos hk]
    · rw [if_neg (by simp [hk]), aggregate_rep_dir, if_neg hk]

theorem aggregate_reps_file_prop (reps : List Rep) (st : RepBuckets) :
    (aggregate_reps reps st).file_prop_rep_stats =
      (reps.filter (fun r => r.kind = RepKind.file_property_rep)).foldl
        add_rep_stats st.file_prop_rep_stats := by
  induction reps generalizing st with
  | nil => rfl
  | cons r rest ih =>
    rw [aggregate_reps, List.foldl_cons, ← aggregate_reps, ih, List.filter_cons]
    by_cases hk : r.kind = RepKind.file_property_rep
    · rw [if_pos (by simp [hk]), List.foldl_cons, aggregate_rep_file_prop, if_pos hk]
    · rw [if_neg (by simp [hk]), aggregate_rep_file_prop, if_neg hk]

theorem aggregate_reps_dir_prop (reps : List Rep) (st : RepBuckets) :
    (aggregate_reps reps st).dir_prop_rep_stats =
      (reps.filter (fun r => r.kind = RepKind.dir_property_rep)).foldl
        add_rep_stats st.dir_prop_rep_stats := by
  induction reps generalizing st with
  | nil => rfl
  | cons r rest ih =>
    rw [aggregate_reps, List.foldl_cons, ← aggregate_reps, ih, List.filter_cons]
    by_cases hk : r.kind = RepKind.dir_property_rep
    · rw [if_pos (by simp [hk]), List.foldl_cons, aggregate_rep_dir_prop, if_pos hk]
    · rw [if_neg (by simp [hk]), aggregate_rep_dir_prop, if_neg hk]

theorem foldl_add_rep_stats_spec (reps : List Rep) (b : RepresentationStats)
    (h1 : ∀ r ∈ reps, 1 ≤ r.ref_count) :
    (reps.foldl add_rep_stats b).uniques =
      (reps.filter (fun r => r.ref_count = 1)).foldl add_rep_pack_stats b.uniques ∧
    (reps.foldl add_rep_stats b).shared =
      (reps.filter (fun r => 1 < r.ref_count)).foldl add_rep_pack_stats b.shared ∧
    (reps.foldl add_rep_stats b).references =
      b.references + (reps.map Rep.ref_count).sum ∧
    (reps.foldl add_rep_stats b).expanded_size =
      b.expanded_size + (reps.map (fun r => r.ref_count * r.expanded_size)).sum := by
  induction reps generalizing b with
  | nil => simp
  | cons r rest ih =>
    have hr := h1 r (by simp)
    have htail : ∀ x ∈ rest, 1 ≤ x.ref_count := fun x hx => h1 x (by simp [hx])
    obtain ⟨ihu, ihs, ihr, ihe⟩ := ih (add_rep_stats b r) htail
    rw [List.foldl_cons]
    refine ⟨?_, ?_, ?_, ?_⟩
    · rw [ihu, List.filter_cons]
      by_cases hrc : r.ref_count = 1
      · rw [if_pos (by simp [hrc]), List.foldl_cons]
        have : (add_rep_stats b r).uniques = add_rep_pack_stats b.uniques r := by
          rw [add_rep_stats, if_pos hrc]
        rw [this]
      · rw [if_neg (by simp [hrc])]
        have : (add_rep_stats b r).uniques = b.uniques := by
          rw [add_rep_stats, if_neg hrc]
        rw [this]
    · rw [ihs, List.filter_cons]
      by_cases hrc : r.ref_count = 1
      · rw [if_neg (by simp; omega)]
        have : (add_rep_stats b r).shared = b.shared := by
          simp [add_rep_stats, hrc]
        rw [this]
      · rw [if_pos (by simp; omega), List.foldl_cons]
        have : (add_rep_stats b r).shared = add_rep_pack_stats b.shared r := by
          simp [add_rep_stats, hrc]
        rw [this]
    · rw [ihr]
      have : (add_rep_stats b r).references = b.references + r.ref_count := rfl
      rw [this, List.map_cons, List.sum_cons]
      omega
    · rw [ihe]
      have : (add_rep_stats b r).expanded_size =
          b.expanded_size + r.ref_count * r.expanded_size := rfl
      rw [this, List.map_cons, List.sum_cons]
      omega

theorem bucket_spec_of_foldl (reps : List Rep) (h1 : ∀ r ∈ reps, 1 ≤ r.ref_count) :
    bucket_spec (reps.foldl add_rep_stats emptyRepresentationStats) reps := by
  obtain ⟨hu, hs, hr, he⟩ := foldl_add_rep_stats_spec reps emptyRepresentationStats h1
  exact ⟨hu, hs, by rw [hr]; simp [emptyRepresentationStats],
    by rw [he]; simp [emptyRepresentationStats]⟩

/-- C4: after the aggregation pass, in every rep-stats bucket (total and
the four kind buckets) the uniques sub-bucket collects exactly the reps
with `ref_count = 1` and the shared sub-bucket exactly those with
`ref_count > 1`; `references` sums the ref counts and the bucket's
`expanded_size` sums `ref_count * expanded_size` over its reps.  The
hypothesis `ref_count ≥ 1` holds for every rep the engine stores, since
interning a rep is immediately followed by its first increment. -/
theorem aggregate_rep_stats_law (reps : List Rep)
    (h1 : ∀ r ∈ reps, 1 ≤ r.ref_count) : aggregate_spec reps := by
  have hsub : ∀ (p : Rep → Bool), ∀ r ∈ reps.filter p, 1 ≤ r.ref_count :=
    fun p r hr => h1 r (List.mem_of_mem_filter hr)
  refine ⟨?_, ?_, ?_, ?_, ?_⟩
  · rw [bucket_spec, aggregate_reps_total]
    exact bucket_spec_of_foldl reps h1
  · rw [bucket_spec, aggregate_reps_file]
    exact bucket_spec_of_foldl _ (hsub _)
  · rw [bucket_spec, aggregate_reps_dir]
    exact bucket_spec_of_foldl _ (hsub _)
  · rw [bucket_spec, aggregate_reps_file_prop]
    exact bucket_spec_of_foldl _ (hsub _)
  · rw [bucket_spec, aggregate_reps_dir_prop]
    exact bucket_spec_of_foldl _ (hsub _)

theorem aggregate_rep_stats_law_witness :
    (∀ r ∈ [(⟨5, 10, 12, 0, 1, 3, RepKind.file_rep⟩ : Rep),
            ⟨9, 4, 4, 0, 2, 1, RepKind.dir_rep⟩], 1 ≤ r.ref_count) ∧
    aggregate_spec [⟨5, 10, 12, 0, 1, 3, RepKind.file_rep⟩,
                    ⟨9, 4, 4, 0, 2, 1, RepKind.dir_rep⟩] :=
  ⟨by decide,
   aggregate_rep_stats_law
     [⟨5, 10, 12, 0, 1, 3, RepKind.file_rep⟩, ⟨9, 4, 4, 0, 2, 1, RepKind.dir_rep⟩]
     (by decide)⟩

/-! ### Logical-driver entry-loop lemmas -/

theorem process_entries_aux_mem (entries : List P2LEntry) (offset i j : Nat)
    (hj : j ∈ (process_entries_aux entries offset i).2) :
    i ≤ j ∧ ∃ e, entries.get? (j - i) = some e ∧ e.size ≠ 0 := by
  induction entries generalizing offset i with
  | nil => simp [process_entries_aux] at hj
  | cons e rest ih =>
    rw [process_entries_aux] at hj
    split at hj
    · obtain ⟨hij, e', he', hs'⟩ := ih offset (i + 1) hj
      refine ⟨by omega, e', ?_, hs'⟩
      have hidx : j - i = (j - (i + 1)) + 1 := by omega
      rw [hidx]
      exact he'
    · split at hj
      · obtain ⟨hij, e', he', hs'⟩ := ih offset (i + 1) hj
        refine ⟨by omega, e', ?_, hs'⟩
        have hidx : j - i = (j - (i + 1)) + 1 := by omega
        rw [hidx]
        exact he'
      · rename_i hsz
        simp only [List.mem_cons] at hj
        rcases hj with rfl | hj
        · refine ⟨Nat.le_refl j, e, ?_, hsz⟩
          have hidx : j - j = 0 := by omega
          rw [hidx]
          rfl
        · obtain ⟨hij, e', he', hs'⟩ := ih (offset + e.size) (i + 1) hj
          refine ⟨by omega, e', ?_, hs'⟩
          have hidx : j - i = (j - (i + 1)) + 1 := by omega
          rw [hidx]
          exact he'

/-- C6 (amended): in the p2l entry loop, the first entry of a block is
skipped when its offset lies before the current walk position, and every
entry of zero size is skipped; only entries surviving both checks reach
the item dispatch (so skipped entries contribute to no statistics), and
no error is raised for a skipped entry.  Entries after the first are not
checked against the walk position. -/
theorem p2l_skip_discipline (entries : List P2LEntry) (offset : Nat) :
    p2l_skip_spec entries offset := by
  constructor
  · intro e rest hent hoff
    subst hent
    have hskip : process_entries (e :: rest) offset =
        process_entries_aux rest offset 1 := by
      rw [process_entries, process_entries_aux, if_pos ⟨rfl, hoff⟩]
    constructor
    · rw [hskip]
    · intro h0
      rw [hskip] at h0
      have := (process_entries_aux_mem rest offset 1 0 h0).1
      omega
  · intro j hj
    obtain ⟨_, e, he, hs⟩ := process_entries_aux_mem entries offset 0 j hj
    refine ⟨e, ?_, hs⟩
    simpa using he

theorem p2l_skip_discipline_witness :
    p2l_skip_spec [⟨0, 0, 1, 0⟩, ⟨2, 3, 1, 0⟩] 2 :=
  p2l_skip_discipline [⟨0, 0, 1, 0⟩, ⟨2, 3, 1, 0⟩] 2

/-- C6 counterexample: in the block `[e0 = ⟨offset 0, size 10⟩,
e1 = ⟨offset 3, size 4⟩]` walked from position 0, entry e0 is processed
and advances the walk position to 10; entry e1 then lies before the walk
position (3 < 10) and has nonzero size, yet it also reaches the item
dispatch (the processed index list is [0, 1]) because the stale-offset
check applies only to the first entry of a block.  This refutes the
claim that every entry whose offset lies before the current walk
position is skipped. -/
theorem p2l_stale_entry_processed_cex :
    (process_entries [⟨0, 10, 1, 0⟩, ⟨3, 4, 1, 0⟩] 0).2 = [0, 1] ∧
    (process_entries [⟨0, 10, 1, 0⟩] 0).1 = 10 ∧ 3 < 10 ∧ (4 : Nat) ≠ 0 := by
  decide

/-! ### Driver lemmas: error propagation and the progress baton -/

/-- C7: whenever the traversal (`read_revisions`, including every
cancellation or parse failure inside it) fails with an error, the public
entry point returns exactly that error and no `Stats` value: the
`Except` result carries no (partial) stats on the error path. -/
theorem get_stats_error_propagation (fs : Fs) (pf pb : Nat) (e : Err)
    (h : read_revisions (create_query fs pf pf) = Except.error e) :
    get_stats fs pf pb = Except.error e ∧
      ∀ s, get_stats fs pf pb ≠ Except.ok s := by
  have hg : get_stats fs pf pb = Except.error e := by
    simp only [get_stats, h]
    rfl
  refine ⟨hg, fun s hok => ?_⟩
  rw [hg] at hok
  exact Except.noConfusion hok

theorem read_revisions_fsCancelled :
    read_revisions (create_query fsCancelled 0 0) = Except.error Err.cancelled := by
  simp [read_revisions, create_query, read_packed, read_unpacked,
    read_phys_revision_file, fsCancelled, fsOk, Bind.bind, Except.bind,
    Pure.pure, Except.pure]

theorem get_stats_error_propagation_witness :
    read_revisions (create_query fsCancelled 0 0) = Except.error Err.cancelled ∧
    (get_stats fsCancelled 0 0 = Except.error Err.cancelled ∧
      ∀ s, get_stats fsCancelled 0 0 ≠ Except.ok s) :=
  ⟨read_revisions_fsCancelled,
   get_stats_error_propagation fsCancelled 0 0 Err.cancelled
     read_revisions_fsCancelled⟩

/-- C1: evaluation of `svn_fs_fs__get_stats` at a failing input.  On the
one-revision repository `fsOk`, a call with a non-null progress callback
(opaque pointer value 7) and caller-supplied baton 5 issues exactly one
progress notification — and that notification carries baton 7, the
function-pointer value, not the caller's baton 5: `get_stats` hands
`progress_func` to `create_query` in the `progress_baton` position
(stats.c:1230), contradicting `create_query`'s own documented contract
of storing PROGRESS_BATON. -/
theorem get_stats_progress_baton_bug :
    get_stats fsOk 7 5 = Except.ok (⟨1, 10⟩, [⟨0, 7⟩]) ∧ (7 : Nat) ≠ 5 := by
  refine ⟨?_, by omega⟩
  simp [get_stats, create_query, read_revisions, read_packed, read_unpacked,
    read_phys_revision_file, notify_progress, fsOk, aggregate_stats_driver,
    Bind.bind, Except.bind, Pure.pure, Except.pure]

/-! ### Driver lemmas: the revisions array is indexed by revision -/

theorem except_bind_ok {α β : Type} (x : Except Err α) (f : α → Except Err β)
    (b : β) (h : (x >>= f) = Except.ok b) :
    ∃ a, x = Except.ok a ∧ f a = Except.ok b := by
  cases x with
  | error e => simp [Bind.bind, Except.bind] at h
  | ok a => exact ⟨a, rfl, by simpa [Bind.bind, Except.bind] using h⟩

theorem pure_eq_ok {α : Type} (a : α) : (pure a : Except Err α) = Except.ok a := rfl

theorem notify_progress_fs (q : Query) (rev : Nat) :
    (notify_progress q rev).fs = q.fs := by
  rw [notify_progress]
  split <;> rfl

theorem notify_progress_revisions (q : Query) (rev : Nat) :
    (notify_progress q rev).revisions = q.revisions := by
  rw [notify_progress]
  split <;> rfl

theorem updateAt_map_revision (l : List RevisionInfo) (n me : Nat) :
    (updateAt n (fun info => { info with end_ := me }) l).map RevisionInfo.revision
      = l.map RevisionInfo.revision := by
  induction l generalizing n with
  | nil => simp [updateAt]
  | cons x xs ih =>
    cases n with
    | zero => simp [updateAt]
    | succ m => simp [updateAt, ih]

theorem phys_pack_rev_ok (base fsz : Nat) (q : Query) (i : Nat) (q1 : Query)
    (h : phys_pack_rev base fsz q i = Except.ok q1) :
    q1.fs = q.fs ∧
    q1.revisions.map RevisionInfo.revision
      = q.revisions.map RevisionInfo.revision ++ [base + i] := by
  rw [phys_pack_rev] at h
  obtain ⟨u1, hc, h⟩ := except_bind_ok _ _ _ h
  obtain ⟨u2, hp, h⟩ := except_bind_ok _ _ _ h
  rw [pure_eq_ok] at h
  have hq1 := (Except.ok.injEq _ _).mp h
  rw [← hq1]
  exact ⟨rfl, by simp⟩

theorem phys_pack_fold_ok (base fsz : Nat) :
    ∀ (len i0 : Nat) (q q1 : Query),
      (List.range' i0 len).foldlM (phys_pack_rev base fsz) q = Except.ok q1 →
      q1.fs = q.fs ∧
      q1.revisions.map RevisionInfo.revision
        = q.revisions.map RevisionInfo.revision ++ List.range' (base + i0) len := by
  intro len
  induction len with
  | zero =>
    intro i0 q q1 h
    rw [List.range'] at h
    rw [List.foldlM] at h
    rw [pure_eq_ok] at h
    have hq1 := (Except.ok.injEq _ _).mp h
    rw [← hq1, List.range']
    simp
  | succ n ih =>
    intro i0 q q1 h
    rw [List.range'_succ, List.foldlM_cons] at h
    obtain ⟨q2, h2, h⟩ := except_bind_ok _ _ _ h
    obtain ⟨hfs2, hmap2⟩ := phys_pack_rev_ok base fsz q i0 q2 h2
    obtain ⟨hfs1, hmap1⟩ := ih (i0 + 1) q2 q1 h
    refine ⟨by rw [hfs1, hfs2], ?_⟩
    rw [hmap1, hmap2, List.range'_succ]
    have harr : base + (i0 + 1) = base + i0 + 1 := by omega
    rw [harr]
    simp

theorem read_phys_pack_file_ok (q : Query) (base : Nat) (q1 : Query)
    (h : read_phys_pack_file q base = Except.ok q1) :
    q1.fs = q.fs ∧
    q1.revisions.map RevisionInfo.revision
      = q.revisions.map RevisionInfo.revision ++ List.range' base q.fs.shard_size := by
  rw [read_phys_pack_file] at h
  obtain ⟨q2, h2, h⟩ := except_bind_ok _ _ _ h
  rw [pure_eq_ok] at h
  have hq1 := (Except.ok.injEq _ _).mp h
  rw [List.range_eq_range'] at h2
  obtain ⟨hfs2, hmap2⟩ := phys_pack_fold_ok base (q.fs.file_size base)
    q.fs.shard_size 0 q q2 h2
  rw [← hq1]
  rw [notify_progress_fs, notify_progress_revisions, hfs2, hmap2]
  simp

theorem double_notify_fs (q : Query) (rev : Nat) (c1 c2 : Prop) [Decidable c1]
    [Decidable c2] :
    ((if c2 then
        notify_progress (if c1 then notify_progress q rev else q) rev
      else (if c1 then notify_progress q rev else q)).fs = q.fs) ∧
    ((if c2 then
        notify_progress (if c1 then notify_progress q rev else q) rev
      else (if c1 then notify_progress q rev else q)).revisions = q.revisions) := by
  by_cases h1 : c1 <;> by_cases h2 : c2 <;>
    simp [h1, h2, notify_progress_fs, notify_progress_revisions]

theorem read_phys_revision_file_ok (q : Query) (revision : Nat) (q1 : Query)
    (h : read_phys_revision_file q revision = Except.ok q1) :
    q1.fs = q.fs ∧
    q1.revisions.map RevisionInfo.revision
      = q.revisions.map RevisionInfo.revision ++ [revision] := by
  rw [read_phys_revision_file] at h
  obtain ⟨u1, hc, h⟩ := except_bind_ok _ _ _ h
  obtain ⟨u2, hp, h⟩ := except_bind_ok _ _ _ h
  rw [pure_eq_ok] at h
  have hq1 := (Except.ok.injEq _ _).mp h
  rw [← hq1]
  set qpush : Query :=
    { q with revisions :=
        q.revisions ++ [{ revision := revision, offset := 0,
                          end_ := q.fs.file_size revision }] } with hqpush
  have hd := double_notify_fs qpush revision
    (qpush.fs.shard_size ≠ 0 ∧ revision % qpush.fs.shard_size = 0)
    ((if qpush.fs.shard_size ≠ 0 ∧ revision % qpush.fs.shard_size = 0 then
        notify_progress qpush revision else qpush).fs.shard_size = 0 ∧
      revision % 1000 = 0)
  refine ⟨?_, ?_⟩
  · rw [hd.1]
  · rw [hd.2]
    simp [hqpush]

theorem read_log_rev_or_packfile_ok (q : Query) (base count : Nat) (q1 : Query)
    (h : read_log_rev_or_packfile q base count = Except.ok q1) :
    q1.fs = q.fs ∧
    q1.revisions.map RevisionInfo.revision
      = q.revisions.map RevisionInfo.revision ++ List.range' base count := by
  simp only [read_log_rev_or_packfile] at h
  obtain ⟨u, hw, h⟩ := except_bind_ok _ _ _ h
  rw [pure_eq_ok] at h
  have hq1 := (Except.ok.injEq _ _).mp h
  rw [← hq1]
  refine ⟨rfl, ?_⟩
  rw [updateAt_map_revision]
  rw [List.map_append, List.map_map]
  rw [List.range'_eq_map_range]
  rfl

theorem read_log_pack_file_ok (q : Query) (base : Nat) (q1 : Query)
    (h : read_log_pack_file q base = Except.ok q1) :
    q1.fs = q.fs ∧
    q1.revisions.map RevisionInfo.revision
      = q.revisions.map RevisionInfo.revision ++ List.range' base q.fs.shard_size := by
  rw [read_log_pack_file] at h
  obtain ⟨q2, h2, h⟩ := except_bind_ok _ _ _ h
  rw [pure_eq_ok] at h
  have hq1 := (Except.ok.injEq _ _).mp h
  obtain ⟨hfs, hmap⟩ := read_log_rev_or_packfile_ok q base q.fs.shard_size q2 h2
  rw [← hq1, notify_progress_fs, notify_progress_revisions]
  exact ⟨hfs, hmap⟩

theorem read_log_revision_file_ok (q : Query) (revision : Nat) (q1 : Query)
    (h : read_log_revision_file q revision = Except.ok q1) :
    q1.fs = q.fs ∧
    q1.revisions.map RevisionInfo.revision
      = q.revisions.map RevisionInfo.revision ++ [revision] := by
  rw [read_log_revision_file] at h
  obtain ⟨q2, h2, h⟩ := except_bind_ok _ _ _ h
  rw [pure_eq_ok] at h
  have hq1 := (Except.ok.injEq _ _).mp h
  obtain ⟨hfs, hmap⟩ := read_log_rev_or_packfile_ok q revision 1 q2 h2
  have hd := double_notify_fs q2 revision
    (q2.fs.shard_size ≠ 0 ∧ revision % q2.fs.shard_size = 0)
    ((if q2.fs.shard_size ≠ 0 ∧ revision % q2.fs.shard_size = 0 then
        notify_progress q2 revision else q2).fs.shard_size = 0 ∧
      revision % 1000 = 0)
  rw [← hq1]
  refine ⟨?_, ?_⟩
  · rw [hd.1, hfs]
  · rw [hd.2, hmap, List.range'_one]

theorem read_packed_ok (fs0 : Fs) (n : Nat) :
    ∀ (rev : Nat) (q q1 : Query) (rev1 : Nat),
      fs0.min_unpacked_rev - rev ≤ n → q.fs = fs0 →
      q.revisions.map RevisionInfo.revision = List.range rev →
      read_packed fs0.min_unpacked_rev fs0.shard_size fs0.use_log q rev
        = Except.ok (q1, rev1) →
      q1.fs = fs0 ∧ q1.revisions.map RevisionInfo.revision = List.range rev1 := by
  induction n with
  | zero =>
    intro rev q q1 rev1 hn hfs hmap h
    rw [read_packed, if_neg (by omega), pure_eq_ok] at h
    have hpair : (q, rev) = (q1, rev1) := (Except.ok.injEq _ _).mp h
    have hq : q = q1 := congrArg Prod.fst hpair
    have hrev : rev = rev1 := congrArg Prod.snd hpair
    rw [← hq, ← hrev]
    exact ⟨hfs, hmap⟩
  | succ n ih =>
    intro rev q q1 rev1 hn hfs hmap h
    rw [read_packed] at h
    by_cases hc : rev < fs0.min_unpacked_rev ∧ 0 < fs0.shard_size
    · rw [if_pos hc] at h
      have hcont : ∀ q2 : Query, q2.fs = fs0 →
          q2.revisions.map RevisionInfo.revision
            = List.range rev ++ List.range' rev fs0.shard_size →
          read_packed fs0.min_unpacked_rev fs0.shard_size fs0.use_log q2
            (rev + fs0.shard_size) = Except.ok (q1, rev1) →
          q1.fs = fs0 ∧ q1.revisions.map RevisionInfo.revision = List.range rev1 := by
        intro q2 hfs2 hmap2 hrec
        have hrange : List.range rev ++ List.range' rev fs0.shard_size
            = List.range (rev + fs0.shard_size) := by
          rw [List.range'_eq_map_range, List.range_add]
        exact ih (rev + fs0.shard_size) q2 q1 rev1 (by omega) hfs2
          (by rw [hmap2, hrange]) hrec
      cases hul : fs0.use_log with
      | false =>
        rw [hul, if_neg (by simp)] at h
        obtain ⟨q2, h2, hrec⟩ := except_bind_ok _ _ _ h
        obtain ⟨hfs2, hmap2⟩ := read_phys_pack_file_ok q rev q2 h2
        rw [← hul] at hrec
        exact hcont q2 (by rw [hfs2, hfs]) (by rw [hmap2, hmap, hfs]) hrec
      | true =>
        rw [hul, if_pos rfl] at h
        obtain ⟨q2, h2, hrec⟩ := except_bind_ok _ _ _ h
        obtain ⟨hfs2, hmap2⟩ := read_log_pack_file_ok q rev q2 h2
        rw [← hul] at hrec
        exact hcont q2 (by rw [hfs2, hfs]) (by rw [hmap2, hmap, hfs]) hrec
    · rw [if_neg hc, pure_eq_ok] at h
      have hpair : (q, rev) = (q1, rev1) := (Except.ok.injEq _ _).mp h
      have hq : q = q1 := congrArg Prod.fst hpair
      have hrev : rev = rev1 := congrArg Prod.snd hpair
      rw [← hq, ← hrev]
      exact ⟨hfs, hmap⟩

theorem read_unpacked_ok (fs0 : Fs) (n : Nat) :
    ∀ (rev : Nat) (q q1 : Query),
      fs0.head + 1 - rev ≤ n → q.fs = fs0 →
      q.revisions.map RevisionInfo.revision = List.range rev →
      read_unpacked fs0.head fs0.use_log q rev = Except.ok q1 →
      ∃ m, q1.fs = fs0 ∧ q1.revisions.map RevisionInfo.revision = List.range m := by
  induction n with
  | zero =>
    intro rev q q1 hn hfs hmap h
    rw [read_unpacked, if_neg (by omega), pure_eq_ok] at h
    have hq := (Except.ok.injEq _ _).mp h
    rw [← hq]
    exact ⟨rev, hfs, hmap⟩
  | succ n ih =>
    intro rev q q1 hn hfs hmap h
    rw [read_unpacked] at h
    by_cases hc : rev ≤ fs0.head
    · rw [if_pos hc] at h
      have hcont : ∀ q2 : Query, q2.fs = fs0 →
          q2.revisions.map RevisionInfo.revision = List.range rev ++ [rev] →
          read_unpacked fs0.head fs0.use_log q2 (rev + 1) = Except.ok q1 →
          ∃ m, q1.fs = fs0 ∧
            q1.revisions.map RevisionInfo.revision = List.range m := by
        intro q2 hfs2 hmap2 hrec
        exact ih (rev + 1) q2 q1 (by omega) hfs2
          (by rw [hmap2, ← List.range_succ]) hrec
      cases hul : fs0.use_log with
      | false =>
        rw [hul, if_neg (by simp)] at h
        obtain ⟨q2, h2, hrec⟩ := except_bind_ok _ _ _ h
        obtain ⟨hfs2, hmap2⟩ := read_phys_revision_file_ok q rev q2 h2
        rw [← hul] at hrec
        exact hcont q2 (by rw [hfs2, hfs]) (by rw [hmap2, hmap]) hrec
      | true =>
        rw [hul, if_pos rfl] at h
        obtain ⟨q2, h2, hrec⟩ := except_bind_ok _ _ _ h
        obtain ⟨hfs2, hmap2⟩ := read_log_revision_file_ok q rev q2 h2
        rw [← hul] at hrec
        exact hcont q2 (by rw [hfs2, hfs]) (by rw [hmap2, hmap]) hrec
    · rw [if_neg hc, pure_eq_ok] at h
      have hq := (Except.ok.injEq _ _).mp h
      rw [← hq]
      exact ⟨rev, hfs, hmap⟩

/-- C10: after a successful traversal, the element at index I of the
query's revisions array is the revision info whose `revision` field
equals I — the drivers append the infos in strictly ascending revision
order starting at revision 0 — so every lookup indexed directly by a
revision number retrieves exactly that revision's info.  The hypothesis
rules out the non-terminating C configuration `shard_size = 0` with a
nonzero `min_unpacked_rev`, which cannot arise (non-sharded
repositories are never packed). -/
theorem revisions_array_indexed (fs : Fs) (pf pb : Nat) (q1 : Query)
    (hterm : 0 < fs.shard_size ∨ fs.min_unpacked_rev = 0)
    (h : read_revisions (create_query fs pf pb) = Except.ok q1) :
    ∀ i (hi : i < q1.revisions.length), (q1.revisions.get ⟨i, hi⟩).revision = i := by
  rw [read_revisions] at h
  simp only [create_query] at h
  obtain ⟨⟨q2, rev2⟩, h2, h⟩ := except_bind_ok _ _ _ h
  obtain ⟨hfs2, hmap2⟩ := read_packed_ok fs fs.min_unpacked_rev 0
    (Query.mk fs [] [] pf pb) q2 rev2 (by omega) rfl rfl h2
  obtain ⟨m, hfs1, hmap1⟩ := read_unpacked_ok fs (fs.head + 1) rev2 q2 q1
    (by omega) hfs2 hmap2 h
  intro i hi
  have hlen : q1.revisions.length = m := by
    have hl := congrArg List.length hmap1
    simpa using hl
  have h1 : (q1.revisions.map RevisionInfo.revision)[i]? = (List.range m)[i]? := by
    rw [hmap1]
  rw [List.getElem?_map] at h1
  have him : i < m := by omega
  rw [List.getElem?_range him] at h1
  rw [List.getElem?_eq_getElem hi] at h1
  simp at h1
  rw [List.get_eq_getElem]
  exact h1

theorem read_revisions_fsOk :
    read_revisions (create_query fsOk 0 0) = Except.ok qOk := by
  simp [read_revisions, create_query, read_packed, read_unpacked,
    read_phys_revision_file, notify_progress, fsOk, qOk, Bind.bind, Except.bind,
    Pure.pure, Except.pure]

theorem revisions_array_indexed_witness :
    (0 < fsOk.shard_size ∨ fsOk.min_unpacked_rev = 0) ∧
    read_revisions (create_query fsOk 0 0) = Except.ok qOk ∧
    ∀ i (hi : i < qOk.revisions.length), (qOk.revisions.get ⟨i, hi⟩).revision = i :=
  ⟨Or.inr rfl, read_revisions_fsOk,
   revisions_array_indexed fsOk 0 0 qOk (Or.inr rfl) read_revisions_fsOk⟩

end Stats
